import Mathlib

/-!
Shallow embedding of the Position Resolution & Move Selection Engine of
`src/background/service-worker.js` (chess-study-tool).

Modelling conventions:
* JavaScript strings are modelled as `List Char` (`Str`); diagnostic
  messages, which are only constructed and compared, are Lean `String`s
  assembled exactly as the template literals in the source.
* JavaScript numbers are modelled as `Nat`/`Int` where the source only
  performs integer arithmetic, and as `ℚ` in the move selector, whose
  claims do not depend on floating-point rounding.
* `Math.exp` is an uninterpreted function parameter `mexp`; `Math.random`
  draws are explicit parameters.
* Possibly-absent values (`undefined`/`null`) are `Option`s; early
  `return {valid:false,...}` paths are `Except String`.
-/

namespace ChessStudy

abbrev Str := List Char

/-- Embeds `String.prototype.trim`: drop whitespace from both ends. -/
def jsTrim (s : Str) : Str :=
  ((s.dropWhile Char.isWhitespace).reverse.dropWhile Char.isWhitespace).reverse

/-- Embeds `'12345678'.includes(c)` — the digit characters accepted as empty runs. -/
def isEmptyDigitB (c : Char) : Bool := (String.toList "12345678").contains c

/-- Embeds `'pnbrqkPNBRQK'.includes(c)` — the 12 legal piece symbols. -/
def isPieceCharB (c : Char) : Bool := (String.toList "pnbrqkPNBRQK").contains c

/-- Embeds `parseInt(c, 10)` on a single digit character. -/
def digitVal (c : Char) : Nat := c.toNat - 48

/-- The validation result `{valid: bool, error?: string}` of `validateFEN`. -/
inductive VRes where
  | ok : VRes
  | err (msg : String) : VRes
deriving DecidableEq

/-- The piece counters accumulated by `validateFEN`'s rank loop. -/
structure PieceCounts where
  wk : Nat
  bk : Nat
  wp : Nat
  bp : Nat
  wpc : Nat
  bpc : Nat
deriving DecidableEq

def PieceCounts.zero : PieceCounts := ⟨0, 0, 0, 0, 0, 0⟩

def PieceCounts.add (a b : PieceCounts) : PieceCounts :=
  ⟨a.wk + b.wk, a.bk + b.bk, a.wp + b.wp, a.bp + b.bp, a.wpc + b.wpc, a.bpc + b.bpc⟩

/-- The counter updates `validateFEN` performs for one piece character,
including the early `return` for a pawn on rank 1 or 8. -/
def bump (c : Char) (rankNum : Nat) (cnt : PieceCounts) : Except String PieceCounts :=
  let cnt := if c.toUpper = c then { cnt with wpc := cnt.wpc + 1 } else { cnt with bpc := cnt.bpc + 1 }
  let cnt := if c = 'K' then { cnt with wk := cnt.wk + 1 } else cnt
  let cnt := if c = 'k' then { cnt with bk := cnt.bk + 1 } else cnt
  if c = 'P' then
    let cnt := { cnt with wp := cnt.wp + 1 }
    if rankNum = 1 ∨ rankNum = 8 then
      .error ("White pawn on rank " ++ toString rankNum ++ " is illegal")
    else .ok cnt
  else if c = 'p' then
    let cnt := { cnt with bp := cnt.bp + 1 }
    if rankNum = 1 ∨ rankNum = 8 then
      .error ("Black pawn on rank " ++ toString rankNum ++ " is illegal")
    else .ok cnt
  else .ok cnt

/-- The inner `for (const char of rank)` loop of `validateFEN`: accumulates
the square count of the rank and the piece counters, returning the first
diagnostic produced inside the loop. -/
def scanRankChars (rankNum : Nat) : Str → Nat → PieceCounts → Except String (Nat × PieceCounts)
  | [], squares, cnt => .ok (squares, cnt)
  | c :: rest, squares, cnt =>
    if isEmptyDigitB c then
      scanRankChars rankNum rest (squares + digitVal c) cnt
    else if isPieceCharB c then
      match bump c rankNum cnt with
      | .error e => .error e
      | .ok cnt => scanRankChars rankNum rest (squares + 1) cnt
    else
      .error ("Invalid character \x27" ++ toString c ++ "\x27 in rank " ++ toString rankNum)

/-- The outer `for (let i = 0; i < 8; i++)` loop of `validateFEN`: scans each
rank, then checks that its squares sum to 8, threading the counters. -/
def scanRanks : List Str → Nat → PieceCounts → Except String PieceCounts
  | [], _, cnt => .ok cnt
  | r :: rest, i, cnt =>
    let rankNum := 8 - i
    match scanRankChars rankNum r 0 cnt with
    | .error e => .error e
    | .ok (squares, cnt) =>
      if squares ≠ 8 then
        .error ("Rank " ++ toString rankNum ++ " has " ++ toString squares ++ " squares, should have 8")
      else scanRanks rest (i + 1) cnt

/-- The king/pawn/piece-count checks and the turn check that follow the rank
loop in `validateFEN`, in source order. -/
def checkCounts (cnt : PieceCounts) (turn : Str) : VRes :=
  if cnt.wk ≠ 1 then .err ("Must have exactly 1 white King, found " ++ toString cnt.wk)
  else if cnt.bk ≠ 1 then .err ("Must have exactly 1 black King, found " ++ toString cnt.bk)
  else if cnt.wp > 8 then .err ("White has " ++ toString cnt.wp ++ " pawns, maximum is 8")
  else if cnt.bp > 8 then .err ("Black has " ++ toString cnt.bp ++ " pawns, maximum is 8")
  else if cnt.wpc > 16 then .err ("White has " ++ toString cnt.wpc ++ " pieces, maximum is 16")
  else if cnt.bpc > 16 then .err ("Black has " ++ toString cnt.bpc ++ " pieces, maximum is 16")
  else if turn ≠ [] ∧ turn ≠ ['w'] ∧ turn ≠ ['b'] then
    .err ("Invalid turn \x27" ++ String.mk turn ++ "\x27, should be \x27w\x27 or \x27b\x27")
  else .ok

/-- Embeds `fen.trim().split(' ')` — the space-separated fields of a FEN string. -/
def fenParts (fen : Str) : List Str := (jsTrim fen).splitOn ' '

/-- The `/`-separated ranks of the first FEN field. -/
def fenRanksOf (fen : Str) : List Str := ((fenParts fen).getD 0 []).splitOn '/'

/-- Embeds `validateFEN` (service-worker.js:2080): validates a FEN string's board
field, king/pawn/piece counts, and turn field, returning the first
diagnostic encountered in source order. -/
def validateFEN (fen : Str) : VRes :=
  if fen = [] then .err "FEN is empty or not a string"
  else
    let parts := fenParts fen
    if parts.length < 2 then
      .err ("FEN should have at least 2 parts, got " ++ toString parts.length)
    else
      let board := parts.getD 0 []
      let ranks := board.splitOn '/'
      if ranks.length ≠ 8 then
        .err ("Board should have 8 ranks, got " ++ toString ranks.length)
      else
        match scanRanks ranks 0 PieceCounts.zero with
        | .error e => .err e
        | .ok cnt => checkCounts cnt (parts.getD 1 [])

/-- One `{square, piece}` entry of the Vision response's pieces array. -/
structure PieceEntry where
  square : Str
  piece : Str
deriving DecidableEq

/-- The loop state of `validatePiecesArray`: the `seen` set, the four
king/pawn counters and the `cleaned` output list. -/
structure PVState where
  seen : List Str
  wk : Nat
  bk : Nat
  wp : Nat
  bp : Nat
  cleaned : List PieceEntry
deriving DecidableEq

/-- One iteration of `validatePiecesArray`'s `for (const entry of pieces)`
loop. A `none` entry models a null/ill-typed element (skipped by the
`typeof` guards); malformed squares, bad piece letters and duplicate
squares are skipped by `continue`; a pawn on rank 1/8 returns an error. -/
def pvStep (st : PVState) (entry? : Option PieceEntry) : Except String PVState :=
  match entry? with
  | none => .ok st
  | some entry =>
    let sq := jsTrim (entry.square.map Char.toLower)
    let pc := jsTrim entry.piece
    if sq.length ≠ 2 ∨ sq.headD ' ' < 'a' ∨ 'h' < sq.headD ' ' ∨
        sq.getD 1 ' ' < '1' ∨ '8' < sq.getD 1 ' ' then .ok st
    else if pc.length ≠ 1 ∨ ¬ isPieceCharB (pc.headD ' ') then .ok st
    else if st.seen.contains sq then .ok st
    else
      let c := pc.headD ' '
      let st := { st with seen := sq :: st.seen }
      let rank := digitVal (sq.getD 1 ' ')
      let st := if c = 'K' then { st with wk := st.wk + 1 } else st
      let st := if c = 'k' then { st with bk := st.bk + 1 } else st
      if c = 'P' then
        let st := { st with wp := st.wp + 1 }
        if rank = 1 ∨ rank = 8 then
          .error ("White pawn on rank " ++ toString rank ++ " is illegal")
        else .ok { st with cleaned := st.cleaned ++ [⟨sq, pc⟩] }
      else if c = 'p' then
        let st := { st with bp := st.bp + 1 }
        if rank = 1 ∨ rank = 8 then
          .error ("Black pawn on rank " ++ toString rank ++ " is illegal")
        else .ok { st with cleaned := st.cleaned ++ [⟨sq, pc⟩] }
      else .ok { st with cleaned := st.cleaned ++ [⟨sq, pc⟩] }

def pvLoop : List (Option PieceEntry) → PVState → Except String PVState
  | [], st => .ok st
  | e :: rest, st =>
    match pvStep st e with
    | .error msg => .error msg
    | .ok st => pvLoop rest st

def PVState.init : PVState := ⟨[], 0, 0, 0, 0, []⟩

/-- Embeds `validatePiecesArray` (service-worker.js:2177): validates the Vision
pieces array, skipping malformed and duplicate entries, and returns the
cleaned entry list on success. -/
def validatePiecesArray (pieces? : Option (List (Option PieceEntry))) :
    Except String (List PieceEntry) :=
  match pieces? with
  | none => .error "Pieces array is empty or not an array"
  | some pieces =>
    if pieces = [] then .error "Pieces array is empty or not an array"
    else
      match pvLoop pieces PVState.init with
      | .error e => .error e
      | .ok st =>
        if st.cleaned = [] then .error "No valid piece entries found"
        else if st.wk ≠ 1 then .error ("Must have exactly 1 white King, found " ++ toString st.wk)
        else if st.bk ≠ 1 then .error ("Must have exactly 1 black King, found " ++ toString st.bk)
        else if st.wp > 8 then .error ("White has " ++ toString st.wp ++ " pawns, maximum is 8")
        else if st.bp > 8 then .error ("Black has " ++ toString st.bp ++ " pawns, maximum is 8")
        else .ok st.cleaned

/-- The 8×8 board built by `buildFENFromPieces`: each entry writes
`board[rank][file] = piece`, later entries overwriting earlier ones. -/
def placeAll (pieces : List PieceEntry) : Nat → Nat → Option Char :=
  pieces.foldl
    (fun b e =>
      let file := (e.square.headD ' ').toNat - 97
      let rank := (e.square.getD 1 ' ').toNat - 49
      fun r f => if r = rank ∧ f = file then e.piece.head? else b r f)
    (fun _ _ => none)

/-- The inner rank-string builder of `buildFENFromPieces`: runs of empty
squares are flushed as a decimal count before each piece and at the end. -/
def encAux : List (Option Char) → Nat → Str
  | [], e => if e = 0 then [] else String.toList (toString e)
  | none :: rest, e => encAux rest (e + 1)
  | some c :: rest, e =>
    (if e = 0 then [] else String.toList (toString e)) ++ c :: encAux rest 0

/-- Row `r` of the board as the list `board[r][0..7]`. -/
def rowOf (b : Nat → Nat → Option Char) (r : Nat) : List (Option Char) :=
  (List.range 8).map fun f => b r f

/-- The board field produced by `buildFENFromPieces`: rank strings for
board rows 7 down to 0, joined with `/`. -/
def buildFENBoardPart (pieces : List PieceEntry) : Str :=
  let b := placeAll pieces
  List.intercalate ['/'] ((List.range 8).map fun k => encAux (rowOf b (7 - k)) 0)

/-- The cumulative-column walk in `getFenPieceAtSquare`'s rank loop. -/
def fenWalk : Str → Nat → Nat → Option Char
  | [], _, _ => none
  | ch :: rest, col, file =>
    if isEmptyDigitB ch then
      let col2 := col + digitVal ch
      if col2 > file then none else fenWalk rest col2 file
    else
      if col = file then some ch
      else if col + 1 > file then none
      else fenWalk rest (col + 1) file

/-- Embeds `getFenPieceAtSquare` (service-worker.js:2282): reads the piece on a
named square out of a FEN board field. (`parseInt` on a non-digit rank
character yields NaN in JS and the function then throws; the embedding is
only applied, as in the source, to well-formed square names, on which the
`c.toNat - 48` model agrees with `parseInt`.) -/
def getFenPieceAtSquare (boardPart square : Str) : Option Char :=
  if boardPart = [] ∨ square = [] ∨ square.length ≠ 2 then none
  else
    match square with
    | [f, r] =>
      let file : Int := (f.toNat : Int) - 97
      let rank : Int := (r.toNat : Int) - 48
      if file < 0 ∨ file > 7 ∨ rank < 1 ∨ rank > 8 then none
      else
        let ranks := boardPart.splitOn '/'
        if ranks.length ≠ 8 then none
        else fenWalk (ranks.getD (8 - rank).toNat []) 0 file.toNat
    | _ => none

/-- Embeds `inferCastlingRightsFromPosition` (service-worker.js:2307). -/
def inferCastlingRightsFromPosition (boardPart : Str) : Str :=
  let rights :=
    (if getFenPieceAtSquare boardPart ['e', '1'] = some 'K' then
      (if getFenPieceAtSquare boardPart ['h', '1'] = some 'R' then ['K'] else []) ++
      (if getFenPieceAtSquare boardPart ['a', '1'] = some 'R' then ['Q'] else [])
    else []) ++
    (if getFenPieceAtSquare boardPart ['e', '8'] = some 'k' then
      (if getFenPieceAtSquare boardPart ['h', '8'] = some 'r' then ['k'] else []) ++
      (if getFenPieceAtSquare boardPart ['a', '8'] = some 'r' then ['q'] else [])
    else [])
  if rights = [] then ['-'] else rights

/-- Embeds `buildFENFromPieces` (service-worker.js:2244): builds a full FEN from a
validated pieces array; `turn = none` models an absent argument (the JS
default `'w'` then applies through the `safeTurn` check). -/
def buildFENFromPieces (pieces : List PieceEntry) (turn : Option Str) : Str :=
  let boardPart := buildFENBoardPart pieces
  let castling := inferCastlingRightsFromPosition boardPart
  let safeTurn :=
    match turn with
    | some t => if t = ['w'] ∨ t = ['b'] then t else ['w']
    | none => ['w']
  boardPart ++ ' ' :: safeTurn ++ ' ' :: castling ++ (' ' :: '-' :: ' ' :: '0' :: ' ' :: ['1'])

/-- Embeds `fen.trim().split(/\s+/).filter(Boolean)` — whitespace-separated tokens. -/
def splitWs (s : Str) : List Str :=
  ((jsTrim s).splitOnP Char.isWhitespace).filter (· ≠ [])

/-- Embeds `normalizeFEN` (service-worker.js:2326): fills missing/invalid FEN
fields with defaults, optionally inferring castling rights when the field
is absent. -/
def normalizeFEN (fen : Str) (inferCastlingWhenMissing : Bool) : Str :=
  if fen = [] then []
  else
    let parts := splitWs fen
    if parts = [] then []
    else
      let position := parts.getD 0 []
      let turn :=
        if parts.getD 1 [] = ['w'] ∨ parts.getD 1 [] = ['b'] then parts.getD 1 [] else ['w']
      let castling :=
        if 3 ≤ parts.length then
          let p2 := parts.getD 2 []
          if p2 ≠ [] ∧ p2 ≠ ['-'] then
            let validCastling := p2.filter fun c => (String.toList "KQkq").contains c
            if validCastling = [] then ['-'] else validCastling
          else ['-']
        else if inferCastlingWhenMissing then inferCastlingRightsFromPosition position
        else ['-']
      let enPassant :=
        match parts.getD 3 [] with
        | [f, r] => if ('a' ≤ f ∧ f ≤ 'h') ∧ (r = '3' ∨ r = '6') then [f, r] else ['-']
        | _ => ['-']
      let halfmove :=
        let p4 := parts.getD 4 []
        if p4 ≠ [] ∧ p4.all Char.isDigit then p4 else ['0']
      let fullmove :=
        let p5 := parts.getD 5 []
        if p5 ≠ [] ∧ p5.all Char.isDigit then p5 else ['1']
      position ++ ' ' :: turn ++ ' ' :: castling ++ ' ' :: enPassant ++ ' ' :: halfmove ++ ' ' :: fullmove

/-- The `{raw, fenWithTurn, normalized}` record of `buildFenForAnalysis`. -/
structure FenData where
  raw : Str
  fenWithTurn : Str
  normalized : Str
deriving DecidableEq

/-- One parsed Vision response: the `fen` field, the `turn` field and the
`pieces` array (each `Option` models an absent/ill-typed value). -/
structure VisionResult where
  fen : Option Str
  turn : Option Str
  pieces : Option (List (Option PieceEntry))
deriving DecidableEq

/-- Embeds `buildFenForAnalysis` (service-worker.js:2366): trims the Vision `fen`,
appends the claimed turn when the string is bare, and normalizes. -/
def buildFenForAnalysis (infer : Bool) (rfen rturn : Option Str) : Option FenData :=
  match rfen with
  | none => none
  | some fs =>
    let raw := jsTrim fs
    if raw = [] then none
    else
      let parts := raw.splitOn ' '
      let fenWithTurn :=
        if parts.length = 1 then
          let turn :=
            match rturn with
            | some t => if t = ['w'] ∨ t = ['b'] then t else ['w']
            | none => ['w']
          raw ++ ' ' :: turn
        else raw
      some ⟨raw, fenWithTurn, normalizeFEN fenWithTurn infer⟩

/-- The fields `evaluateVisionResults` adds to each result. -/
structure EvalOutcome where
  fenForStockfish : Option Str
  normalizedFen : Option Str
  validation : VRes
  recoveryMethod : Option String
deriving DecidableEq

/-- The pieces-array side of `evaluateVisionResults`: validate the array,
rebuild a FEN from the cleaned entries, and keep it only if that rebuilt
FEN itself validates. -/
def piecesResultOf (result : VisionResult) : Option Str :=
  match result.pieces with
  | none => none
  | some ps =>
    match validatePiecesArray (some ps) with
    | .error _ => none
    | .ok cleaned =>
      let rebuilt := buildFENFromPieces cleaned result.turn
      if validateFEN rebuilt = .ok then some rebuilt else none

/-- Embeds `fenData?.normalized?.split(' ')[0] || '(none)'`. -/
def fenBoardOf (fenData? : Option FenData) : Str :=
  match fenData? with
  | none => String.toList "(none)"
  | some fd =>
    let s := (fd.normalized.splitOn ' ').getD 0 []
    if s = [] then String.toList "(none)" else s

/-- Embeds `piecesResult?.fen?.split(' ')[0] || '(none)'`. -/
def piecesBoardOf (pf? : Option Str) : Str :=
  match pf? with
  | none => String.toList "(none)"
  | some pf =>
    let s := (pf.splitOn ' ').getD 0 []
    if s = [] then String.toList "(none)" else s

/-- Embeds `evaluateVisionResults` (service-worker.js:2403), per element: compares
the run-length FEN candidate against the pieces-array candidate and picks
a board, tagging `recoveryMethod = 'pieces-array'` when the pieces array
is used. -/
def evaluateVisionResult (infer : Bool) (result : VisionResult) : EvalOutcome :=
  let fenData := buildFenForAnalysis infer result.fen result.turn
  let fenValidation : Option VRes := fenData.map fun fd => validateFEN fd.normalized
  let piecesResult : Option Str := piecesResultOf result
  let mtch : Bool := fenBoardOf fenData == piecesBoardOf piecesResult
  match fenData, fenValidation, piecesResult with
  | some fd, some .ok, some pf =>
    if mtch then ⟨some fd.fenWithTurn, some fd.normalized, .ok, none⟩
    else ⟨some pf, some pf, .ok, some "pieces-array"⟩
  | some fd, some .ok, none => ⟨some fd.fenWithTurn, some fd.normalized, .ok, none⟩
  | _, _, some pf => ⟨some pf, some pf, .ok, some "pieces-array"⟩
  | _, _, none =>
    ⟨fenData.map (·.fenWithTurn), fenData.map (·.normalized),
      (fenValidation.getD (.err "No FEN provided")), none⟩

/-- A move's `evaluation` field: a number (pawns) or a string (mate). -/
inductive EvalV where
  | num (q : ℚ)
  | str (s : Str)
deriving DecidableEq

/-- A ranked candidate move; only the fields `selectHumanMove` reads. -/
structure Move where
  move : Str
  evaluation : EvalV
deriving DecidableEq

/-- The object returned by `selectHumanMove`. -/
structure SelResult where
  selected : Option Move
  engineBest : Option Move
  allMoves : List Move
deriving DecidableEq

/-- The keys of the object literals returned by `selectHumanMove` (all
three `return` sites use exactly these). -/
def selectionResultKeys : List String := ["selected", "engineBest", "allMoves"]

/-- Embeds `Math.max` on two numbers. -/
def jsMax (a b : ℚ) : ℚ := if a < b then b else a

/-- Embeds `typeof e === 'number' ? e * 100 : 0`. -/
def cpOf (e : EvalV) : ℚ :=
  match e with
  | .num q => q * 100
  | .str _ => 0

/-- Embeds `typeof e === 'string' && e.startsWith('M')`. -/
def isMateEvalB (e : EvalV) : Bool :=
  match e with
  | .num _ => false
  | .str s => s.head? == some 'M'

/-- The cumulative-distribution walk of `selectHumanMove`: returns the
first index whose cumulative probability reaches the roll, and keeps the
initial `selectedIndex = 0` when the loop finishes without a hit. -/
def cdfGo : List ℚ → ℚ → ℚ → Nat → Nat
  | [], _, _, _ => 0
  | p :: rest, roll, cum, i =>
    let c := cum + p
    if roll ≤ c then i else cdfGo rest roll c (i + 1)

/-- The sampling pipeline of `selectHumanMove` (losses, temperature with
jitter, softmax weights, cumulative sampling). `mexp` stands for
`Math.exp`; `jit` and `roll` are the two `Math.random()` draws. -/
def sampledIndex (mexp : ℚ → ℚ) (moves : List Move) (targetElo jit roll : ℚ) : Nat :=
  let bestCp :=
    match moves.head? with
    | some engineBest => cpOf engineBest.evaluation
    | none => 0
  let losses := moves.map fun m => jsMax 0 (bestCp - cpOf m.evaluation)
  let baseTemp := jsMax 5 (200 - (8 / 100) * targetElo)
  let tau := baseTemp * (85 / 100 + jit * (30 / 100))
  let weights := losses.map fun l => mexp (-(l / tau))
  let sum := weights.foldl (· + ·) 0
  let probs := weights.map fun w => w / sum
  cdfGo probs roll 0 0

/-- Embeds `selectHumanMove` (service-worker.js:2491): pass-through for 0–1 moves,
deterministic pick of a mate-scored top move, otherwise softmax sampling
over centipawn losses. -/
def selectHumanMove (mexp : ℚ → ℚ) (moves? : Option (List Move))
    (targetElo jit roll : ℚ) : SelResult :=
  match moves? with
  | none => ⟨none, none, []⟩
  | some [] => ⟨none, none, []⟩
  | some [m] => ⟨some m, some m, [m]⟩
  | some (engineBest :: m2 :: rest) =>
    let moves := engineBest :: m2 :: rest
    if isMateEvalB engineBest.evaluation then ⟨some engineBest, some engineBest, moves⟩
    else ⟨moves.get? (sampledIndex mexp moves targetElo jit roll), some engineBest, moves⟩

/-- One vision attempt either parses to a `VisionResult` or throws. -/
inductive VisionCallResult where
  | ok (r : VisionResult)
  | thrown (msg : String)
deriving DecidableEq

/-- Outcome of the vision phase of `handleAnalysis`: either an `{error}`
return or a valid evaluation handed on to move analysis. -/
inductive AnalysisOutcome where
  | failure (error : String)
  | resolved (evaluation : EvalOutcome)
deriving DecidableEq

/-- Embeds `${evaluation?.validation?.error}` on the failure path. -/
def errTextOf : VRes → String
  | .ok => "undefined"
  | .err m => m

/-- The vision phase of `handleAnalysis` (service-worker.js:1494–1531):
one vision call, one retry if the evaluation is invalid, then a terminal
failure that embeds the retry's diagnostic. `oracle n` is the result of
the `n`-th `analyzeWithVision` call; the returned `Nat` counts the vision
calls made. -/
def analysisVisionPhase (infer : Bool) (oracle : Nat → VisionCallResult) :
    AnalysisOutcome × Nat :=
  match oracle 0 with
  | .thrown m => (.failure ("Vision analysis failed: " ++ m), 1)
  | .ok r1 =>
    let eval1 := evaluateVisionResult infer r1
    if eval1.validation = .ok then (.resolved eval1, 1)
    else
      match oracle 1 with
      | .thrown m => (.failure ("Vision retry failed: " ++ m), 2)
      | .ok r2 =>
        let eval2 := evaluateVisionResult infer r2
        if eval2.validation = .ok then (.resolved eval2, 2)
        else (.failure ("Vision returned invalid FEN: " ++ errTextOf eval2.validation), 2)

/-- The module-level rate-limiter state `lichessLastRequest` /
`lichessBackoffUntil` (service-worker.js:2583). -/
structure LichessState where
  lastRequest : Int
  backoffUntil : Int
deriving DecidableEq

def LICHESS_MIN_INTERVAL : Int := 1000

def LICHESS_BACKOFF_TIME : Int := 60000

inductive LichessOutcome where
  | rateLimited (msg : String)
  | throttled (msg : String)
  | httpError (msg : String)
  | response
deriving DecidableEq

/-- What one `getLichessCloudEval` attempt did to the limiter state. -/
structure LichessCallResult where
  outcome : LichessOutcome
  state : LichessState
  networkCalled : Bool
  delayed : Int
deriving DecidableEq

/-- Embeds `Math.ceil(d / 1000)` for `d ≥ 0`. -/
def ceilSeconds (d : Int) : Int := (d + 999) / 1000

/-- The `setTimeout` delay inserted before the request when the minimum
inter-request interval has not elapsed. -/
def lichessPreDelay (st : LichessState) (now : Int) : Int :=
  if now - st.lastRequest < LICHESS_MIN_INTERVAL then
    LICHESS_MIN_INTERVAL - (now - st.lastRequest)
  else 0

/-- The control flow of `getLichessCloudEval` (service-worker.js:2589) up
to and including the HTTP status dispatch. `now` is `Date.now()` at entry,
`tReq` the `Date.now()` stored in `lichessLastRequest` after the optional
delay, `tResp` the `Date.now()` taken when a 429 response is handled, and
`status` the HTTP status of the response. -/
def lichessCall (st : LichessState) (now tReq tResp : Int) (status : Nat)
    (retryCount : Nat) : LichessCallResult :=
  if now < st.backoffUntil then
    { outcome := .rateLimited ("Rate limited. Please wait " ++
        toString (ceilSeconds (st.backoffUntil - now)) ++ "s before next analysis."),
      state := st, networkCalled := false, delayed := 0 }
  else
    let delayed := lichessPreDelay st now
    let st := { st with lastRequest := tReq }
    if 200 ≤ status ∧ status < 300 then
      { outcome := .response, state := st, networkCalled := true, delayed := delayed }
    else if status = 429 then
      { outcome := .throttled (if retryCount = 0 then "Rate limited by Lichess. Will use fallback."
          else "Rate limited by Lichess. Please wait a minute."),
        state := { st with backoffUntil := tResp + LICHESS_BACKOFF_TIME },
        networkCalled := true, delayed := delayed }
    else if status = 404 then
      { outcome := .httpError "Position not in Lichess cloud database",
        state := st, networkCalled := true, delayed := delayed }
    else
      { outcome := .httpError ("Lichess API error: " ++ toString status),
        state := st, networkCalled := true, delayed := delayed }

/-- The `square.toLowerCase().trim()` form of an entry's square name. -/
def cleanedSquare (entry : PieceEntry) : Str := jsTrim (entry.square.map Char.toLower)

/-- A square name the `validatePiecesArray` loop cannot use: not two
characters, or outside files a–h / ranks 1–8. -/
def squareMalformed (sq : Str) : Prop :=
  match sq with
  | [f, r] => f < 'a' ∨ 'h' < f ∨ r < '1' ∨ '8' < r
  | _ => True

/-- A piece field the `validatePiecesArray` loop cannot use: not a single
character from the 12-symbol alphabet. -/
def pieceMalformed (pc : Str) : Prop :=
  match pc with
  | [c] => isPieceCharB c = false
  | _ => True

/-- A concrete Vision response whose run-length FEN (`K` alone on a1) and
pieces array (`K` on a1 plus `Q` on b1) both validate but disagree on
square b1. -/
def cexVisionResult : VisionResult :=
  ⟨some (String.toList "k7/8/8/8/8/8/8/K7 w"), some ['w'],
    some [some ⟨['a', '8'], ['k']⟩, some ⟨['a', '1'], ['K']⟩, some ⟨['b', '1'], ['Q']⟩]⟩

instance : (sq : Str) → Decidable (squareMalformed sq)
  | [] => .isTrue trivial
  | [_] => .isTrue trivial
  | [f, r] => inferInstanceAs (Decidable (f < 'a' ∨ 'h' < f ∨ r < '1' ∨ '8' < r))
  | _ :: _ :: _ :: _ => .isTrue trivial

instance : (pc : Str) → Decidable (pieceMalformed pc)
  | [] => .isTrue trivial
  | [c] => inferInstanceAs (Decidable (isPieceCharB c = false))
  | _ :: _ :: _ => .isTrue trivial

/-- Rule 2's quantity, stated declaratively: piece letters count 1, empty
run digits count their value. -/
def rankSquares (r : Str) : Nat :=
  (r.map fun c => if isEmptyDigitB c then digitVal c else 1).sum

/-- The declarative piece counters of one rank: occurrences of each king
and pawn letter, and of white/black piece letters. -/
def rankCounts (r : Str) : PieceCounts :=
  ⟨r.count 'K', r.count 'k', r.count 'P', r.count 'p',
    r.countP fun c => isPieceCharB c && (c.toUpper == c),
    r.countP fun c => isPieceCharB c && !(c.toUpper == c)⟩

/-- The declarative piece counters of a whole board. -/
def totalCounts : List Str → PieceCounts
  | [] => PieceCounts.zero
  | r :: rest => (rankCounts r).add (totalCounts rest)

/-- One rank passes the in-loop checks: only legal characters, no pawn on
rank 1/8, and an 8-square sum. -/
def rankCleanAtB (rankNum : Nat) (r : Str) : Bool :=
  r.all (fun c => isEmptyDigitB c || isPieceCharB c) &&
  (if rankNum = 1 ∨ rankNum = 8 then !(r.contains 'P') && !(r.contains 'p') else true) &&
  (rankSquares r == 8)

/-- All ranks from loop index `i` on pass the in-loop checks (the loop maps
index `i` to rank number `8 - i`). -/
def boardCleanFromB : Nat → List Str → Bool
  | _, [] => true
  | i, r :: rest => rankCleanAtB (8 - i) r && boardCleanFromB (i + 1) rest

/-- Rules 4–6 of the claim, stated declaratively over the counters. -/
def countsOk (c : PieceCounts) : Prop :=
  c.wk = 1 ∧ c.bk = 1 ∧ c.wp ≤ 8 ∧ c.bp ≤ 8 ∧ c.wpc ≤ 16 ∧ c.bpc ≤ 16

/-- The turn field is empty or one of `w`/`b`. -/
def turnOk (t : Str) : Prop := t = [] ∨ t = ['w'] ∨ t = ['b']

instance (c : PieceCounts) : Decidable (countsOk c) :=
  inferInstanceAs
    (Decidable (c.wk = 1 ∧ c.bk = 1 ∧ c.wp ≤ 8 ∧ c.bp ≤ 8 ∧ c.wpc ≤ 16 ∧ c.bpc ≤ 16))

instance (t : Str) : Decidable (turnOk t) :=
  inferInstanceAs (Decidable (t = [] ∨ t = ['w'] ∨ t = ['b']))

/-- A cleaned entry as produced by `validatePiecesArray`: a two-character
in-range square name and a single piece letter. -/
def wfEntry (e : PieceEntry) : Prop :=
  (∃ f r, e.square = [f, r] ∧ 'a' ≤ f ∧ f ≤ 'h' ∧ '1' ≤ r ∧ r ≤ '8') ∧
  (∃ c, e.piece = [c] ∧ isPieceCharB c = true)

/- ================= theorems ================= -/

/-- C4 (counterexample): an input with a duplicate square (`e1` twice) and
an input with a malformed square (`z9`) are both ACCEPTED by
`validatePiecesArray` — the offending entries are dropped, the result is
`valid` — refuting the claim that such inputs are rejected. -/
theorem validatePiecesArray_accepts_duplicate_and_malformed :
    validatePiecesArray
        (some [some ⟨['e', '1'], ['K']⟩, some ⟨['e', '1'], ['Q']⟩, some ⟨['e', '8'], ['k']⟩]) =
      .ok [⟨['e', '1'], ['K']⟩, ⟨['e', '8'], ['k']⟩] ∧
    validatePiecesArray
        (some [some ⟨['e', '1'], ['K']⟩, some ⟨['z', '9'], ['Q']⟩, some ⟨['e', '8'], ['k']⟩]) =
      .ok [⟨['e', '1'], ['K']⟩, ⟨['e', '8'], ['k']⟩] := by
  constructor <;> rfl

/-- A square name is malformed exactly when the length/range test in
`pvStep` fires. -/
theorem squareMalformed_iff (sq : Str) :
    squareMalformed sq ↔
      (sq.length ≠ 2 ∨ sq.headD ' ' < 'a' ∨ 'h' < sq.headD ' ' ∨
        sq.getD 1 ' ' < '1' ∨ '8' < sq.getD 1 ' ') := by
  rcases sq with _ | ⟨f, _ | ⟨r, _ | _⟩⟩ <;> simp [squareMalformed]

/-- A piece field is malformed exactly when the length/alphabet test in
`pvStep` fires. -/
theorem pieceMalformed_iff (pc : Str) :
    pieceMalformed pc ↔ (pc.length ≠ 1 ∨ ¬ isPieceCharB (pc.headD ' ')) := by
  rcases pc with _ | ⟨c, _ | _⟩ <;> simp [pieceMalformed]

/-- C4 (amended): a duplicate-square or malformed entry is silently
skipped — the loop state is returned unchanged, with no validation
error — rather than the input being rejected. -/
theorem pvStep_skips_malformed_or_duplicate (st : PVState) (entry : PieceEntry)
    (h : squareMalformed (cleanedSquare entry) ∨ pieceMalformed (jsTrim entry.piece) ∨
      st.seen.contains (cleanedSquare entry) = true) :
    pvStep st (some entry) = .ok st := by
  simp only [cleanedSquare] at h
  simp only [pvStep]
  rcases h with h | h | h
  · rw [if_pos ((squareMalformed_iff _).mp h)]
  · by_cases h1 : (jsTrim (List.map Char.toLower entry.square)).length ≠ 2 ∨
        (jsTrim (List.map Char.toLower entry.square)).headD ' ' < 'a' ∨
        'h' < (jsTrim (List.map Char.toLower entry.square)).headD ' ' ∨
        (jsTrim (List.map Char.toLower entry.square)).getD 1 ' ' < '1' ∨
        '8' < (jsTrim (List.map Char.toLower entry.square)).getD 1 ' '
    · rw [if_pos h1]
    · rw [if_neg h1, if_pos ((pieceMalformed_iff _).mp h)]
  · by_cases h1 : (jsTrim (List.map Char.toLower entry.square)).length ≠ 2 ∨
        (jsTrim (List.map Char.toLower entry.square)).headD ' ' < 'a' ∨
        'h' < (jsTrim (List.map Char.toLower entry.square)).headD ' ' ∨
        (jsTrim (List.map Char.toLower entry.square)).getD 1 ' ' < '1' ∨
        '8' < (jsTrim (List.map Char.toLower entry.square)).getD 1 ' '
    · rw [if_pos h1]
    · by_cases h2 : (jsTrim entry.piece).length ≠ 1 ∨
          ¬ isPieceCharB ((jsTrim entry.piece).headD ' ')
      · rw [if_neg h1, if_pos h2]
      · rw [if_neg h1, if_neg h2, if_pos h]

/-- C4 (witness for the amended theorem): the malformed entry `z9 → Q` is
skipped, leaving the initial state untouched. -/
theorem pvStep_skips_malformed_or_duplicate_witness :
    (squareMalformed (cleanedSquare ⟨['z', '9'], ['Q']⟩) ∨
      pieceMalformed (jsTrim (['Q'] : Str)) ∨
      PVState.init.seen.contains (cleanedSquare ⟨['z', '9'], ['Q']⟩) = true) ∧
    pvStep PVState.init (some ⟨['z', '9'], ['Q']⟩) = .ok PVState.init :=
  ⟨Or.inl (by decide),
    pvStep_skips_malformed_or_duplicate PVState.init ⟨['z', '9'], ['Q']⟩ (Or.inl (by decide))⟩

/-- C6: when the top move of a list of at least two ranked moves carries a
mate-string evaluation, `selectHumanMove` returns it as `selected` for
every rating and every pair of random draws — the mate branch returns
before any randomness is consulted. -/
theorem selectHumanMove_mate_deterministic (mexp : ℚ → ℚ) (engineBest m2 : Move)
    (rest : List Move) (targetElo jit roll : ℚ)
    (helo : 800 ≤ targetElo ∧ targetElo ≤ 2400)
    (hmate : isMateEvalB engineBest.evaluation = true) :
    selectHumanMove mexp (some (engineBest :: m2 :: rest)) targetElo jit roll =
      ⟨some engineBest, some engineBest, engineBest :: m2 :: rest⟩ := by
  simp [selectHumanMove, hmate]

/-- C6 (witness): a concrete two-move list whose top move is `M2`. -/
theorem selectHumanMove_mate_deterministic_witness :
    ((800 : ℚ) ≤ 1500 ∧ (1500 : ℚ) ≤ 2400) ∧
    isMateEvalB (EvalV.str ['M', '2']) = true ∧
    selectHumanMove (fun _ => 1)
        (some [⟨['e'], .str ['M', '2']⟩, ⟨['d'], .num 1⟩]) 1500 0 0 =
      ⟨some ⟨['e'], .str ['M', '2']⟩, some ⟨['e'], .str ['M', '2']⟩,
        [⟨['e'], .str ['M', '2']⟩, ⟨['d'], .num 1⟩]⟩ :=
  ⟨⟨by norm_num, by norm_num⟩, by decide,
    selectHumanMove_mate_deterministic (fun _ => 1) ⟨['e'], .str ['M', '2']⟩ ⟨['d'], .num 1⟩ []
      1500 0 0 ⟨by norm_num, by norm_num⟩ (by decide)⟩

/-- C7: with a null list or at most one move, `selectHumanMove` returns the
sole move (or `none`) as both `selected` and `engineBest`, together with
the (defaulted-to-empty) input list, independently of the random draws;
the function is total, so no error is raised. -/
theorem selectHumanMove_degenerate (mexp : ℚ → ℚ) (moves? : Option (List Move))
    (targetElo jit roll : ℚ)
    (h : moves? = none ∨ (moves?.getD []).length ≤ 1) :
    selectHumanMove mexp moves? targetElo jit roll =
      ⟨(moves?.getD []).head?, (moves?.getD []).head?, moves?.getD []⟩ := by
  match moves? with
  | none => rfl
  | some [] => rfl
  | some [m] => rfl
  | some (a :: b :: l) =>
    rcases h with h | h
    · cases h
    · simp at h

/-- C7 (witness): the empty list yields a null selection. -/
theorem selectHumanMove_degenerate_witness :
    ((some ([] : List Move) = none ∨ ((some ([] : List Move)).getD []).length ≤ 1) ∧
      selectHumanMove (fun _ => 1) (some ([] : List Move)) 1500 0 0 = ⟨none, none, []⟩) ∧
    selectHumanMove (fun _ => 1) (some [(⟨['e'], .num 1⟩ : Move)]) 1500 0 0 =
      ⟨some ⟨['e'], .num 1⟩, some ⟨['e'], .num 1⟩, [⟨['e'], .num 1⟩]⟩ :=
  ⟨⟨Or.inr (by decide),
      selectHumanMove_degenerate (fun _ => 1) (some []) 1500 0 0 (Or.inr (by decide))⟩,
    selectHumanMove_degenerate (fun _ => 1) (some [⟨['e'], .num 1⟩]) 1500 0 0
      (Or.inr (by decide))⟩

/-- The cumulative walk either falls back to index 0 or stops at an index
below `i + ps.length`. -/
theorem cdfGo_zero_or_lt (ps : List ℚ) (roll cum : ℚ) (i : Nat) :
    cdfGo ps roll cum i = 0 ∨ cdfGo ps roll cum i < i + ps.length := by
  induction ps generalizing cum i with
  | nil => exact Or.inl rfl
  | cons p rest ih =>
    simp only [cdfGo]
    split
    · right
      simp only [List.length_cons]
      omega
    · rcases ih (cum + p) (i + 1) with h | h
      · exact Or.inl h
      · right
        simp only [List.length_cons]
        omega

/-- The cumulative walk's index is always below any nonzero length the
probability list carries. -/
theorem cdfGo_lt_of_length (ps : List ℚ) (roll : ℚ) (n : Nat) (hn : ps.length = n)
    (hpos : 0 < n) : cdfGo ps roll 0 0 < n := by
  rcases cdfGo_zero_or_lt ps roll 0 0 with h0 | h
  · rw [h0]
    exact hpos
  · rw [Nat.zero_add, hn] at h
    exact h

/-- The index sampled by `selectHumanMove` is in bounds. -/
theorem sampledIndex_lt (mexp : ℚ → ℚ) (moves : List Move) (targetElo jit roll : ℚ)
    (h : moves ≠ []) : sampledIndex mexp moves targetElo jit roll < moves.length := by
  simp only [sampledIndex]
  exact cdfGo_lt_of_length _ _ _ (by simp) (List.length_pos.mpr h)

/-- C10: for every non-empty move list, rating and pair of random draws,
the selected move is an element of the input list (the cumulative walk's
index is in bounds, falling back to index 0 when the roll exceeds the
accumulated sum), `engineBest` is the first element, and the input list is
returned as `allMoves`. -/
theorem selectHumanMove_selected_mem (mexp : ℚ → ℚ) (moves : List Move)
    (targetElo jit roll : ℚ) (h : moves ≠ []) :
    (∃ m ∈ moves, (selectHumanMove mexp (some moves) targetElo jit roll).selected = some m) ∧
    (selectHumanMove mexp (some moves) targetElo jit roll).engineBest = moves.head? ∧
    (selectHumanMove mexp (some moves) targetElo jit roll).allMoves = moves := by
  match moves with
  | [] => exact absurd rfl h
  | [m] => exact ⟨⟨m, by simp, rfl⟩, rfl, rfl⟩
  | a :: b :: l =>
    by_cases hm : isMateEvalB a.evaluation
    · refine ⟨⟨a, by simp, ?_⟩, ?_, ?_⟩ <;> simp [selectHumanMove, hm]
    · have hidx := sampledIndex_lt mexp (a :: b :: l) targetElo jit roll (by simp)
      have hg := List.get?_eq_get hidx
      refine ⟨⟨(a :: b :: l).get ⟨_, hidx⟩, List.get_mem _ _ _, ?_⟩, ?_, ?_⟩
      · simpa [selectHumanMove, hm] using hg
      · simp [selectHumanMove, hm]
      · simp [selectHumanMove, hm]

/-- C10 (witness): a concrete three-move list; the roll `9/10` lands on the
second move, which is indeed a member of the list. -/
theorem selectHumanMove_selected_mem_witness :
    ([(⟨['e'], .num 1⟩ : Move), ⟨['d'], .num 0⟩] ≠ []) ∧
    (∃ m ∈ [(⟨['e'], .num 1⟩ : Move), ⟨['d'], .num 0⟩],
      (selectHumanMove (fun _ => 1) (some [⟨['e'], .num 1⟩, ⟨['d'], .num 0⟩]) 1500 0 (9/10)).selected =
        some m) :=
  ⟨by decide,
    (selectHumanMove_selected_mem (fun _ => 1) [⟨['e'], .num 1⟩, ⟨['d'], .num 0⟩] 1500 0 (9/10)
      (by decide)).1⟩

/-- C9 (counterexample): at a concrete non-mate two-move input the full
returned object is `{selected, engineBest, allMoves}` — the key set of
every `return` in `selectHumanMove` — and `samplingTemperature` is not
among its keys, refuting the claim that the result carries the realized
sampling temperature. -/
theorem selectHumanMove_no_samplingTemperature :
    selectHumanMove (fun _ => 1) (some [⟨['e'], .num 1⟩, ⟨['d'], .num 0⟩]) 1500 0 0 =
      ⟨some ⟨['e'], .num 1⟩, some ⟨['e'], .num 1⟩, [⟨['e'], .num 1⟩, ⟨['d'], .num 0⟩]⟩ ∧
    "samplingTemperature" ∉ selectionResultKeys := by
  constructor
  · simp only [selectHumanMove, isMateEvalB]
    norm_num [sampledIndex, cdfGo, jsMax, cpOf]
  · decide

/-- C9 (amended): for a non-mate list of at least two moves the result
carries the sampled move as `selected`, the top move as `engineBest` and
the input list as `allMoves`, and nothing else — in particular no
`samplingTemperature` field, the realized temperature being only logged. -/
theorem selectHumanMove_result_fields (mexp : ℚ → ℚ) (engineBest m2 : Move)
    (rest : List Move) (targetElo jit roll : ℚ)
    (hnomate : isMateEvalB engineBest.evaluation = false) :
    selectHumanMove mexp (some (engineBest :: m2 :: rest)) targetElo jit roll =
      ⟨(engineBest :: m2 :: rest).get?
          (sampledIndex mexp (engineBest :: m2 :: rest) targetElo jit roll),
        some engineBest, engineBest :: m2 :: rest⟩ ∧
    "samplingTemperature" ∉ selectionResultKeys := by
  constructor
  · simp [selectHumanMove, hnomate]
  · decide

/-- C9 (witness for the amended theorem). -/
theorem selectHumanMove_result_fields_witness :
    isMateEvalB (EvalV.num 1) = false ∧
    selectHumanMove (fun _ => 1) (some [⟨['e'], .num 1⟩, ⟨['d'], .num 0⟩]) 1500 0 0 =
      ⟨[(⟨['e'], .num 1⟩ : Move), ⟨['d'], .num 0⟩].get?
          (sampledIndex (fun _ => 1) [⟨['e'], .num 1⟩, ⟨['d'], .num 0⟩] 1500 0 0),
        some ⟨['e'], .num 1⟩, [⟨['e'], .num 1⟩, ⟨['d'], .num 0⟩]⟩ :=
  ⟨by decide,
    (selectHumanMove_result_fields (fun _ => 1) ⟨['e'], .num 1⟩ ⟨['d'], .num 0⟩ [] 1500 0 0
      (by decide)).1⟩

/-- C8: the gateway (i) fails fast — without a network call and without a
state change — on any request entering while `now < backoffUntil`, with a
message carrying the remaining wait in seconds; (ii) otherwise always
proceeds to the network, enforcing the minimum inter-request interval by
a delay, never a failure; (iii) sets `backoffUntil` to the 429 handling
time plus the fixed 60 s cooldown on every throttling response. -/
theorem lichessCall_rate_limit_spec (st : LichessState) (now tReq tResp : Int)
    (status retryCount : Nat) :
    (now < st.backoffUntil →
      lichessCall st now tReq tResp status retryCount =
        ⟨.rateLimited ("Rate limited. Please wait " ++
            toString (ceilSeconds (st.backoffUntil - now)) ++ "s before next analysis."),
          st, false, 0⟩) ∧
    (¬ now < st.backoffUntil →
      (lichessCall st now tReq tResp status retryCount).networkCalled = true ∧
      (lichessCall st now tReq tResp status retryCount).delayed = lichessPreDelay st now ∧
      (now - st.lastRequest < LICHESS_MIN_INTERVAL →
        (lichessCall st now tReq tResp status retryCount).delayed =
          LICHESS_MIN_INTERVAL - (now - st.lastRequest)) ∧
      (status = 429 →
        (lichessCall st now tReq tResp status retryCount).state.backoffUntil =
          tResp + LICHESS_BACKOFF_TIME)) := by
  constructor
  · intro hlt
    simp [lichessCall, hlt]
  · intro hge
    have hdel : (lichessCall st now tReq tResp status retryCount).delayed =
        lichessPreDelay st now := by
      unfold lichessCall
      rw [if_neg hge]
      split
      · rfl
      · split
        · rfl
        · split
          · rfl
          · rfl
    refine ⟨?_, hdel, ?_, ?_⟩
    · unfold lichessCall
      rw [if_neg hge]
      split
      · rfl
      · split
        · rfl
        · split
          · rfl
          · rfl
    · intro hint
      rw [hdel]
      unfold lichessPreDelay
      rw [if_pos hint]
    · intro h429
      subst h429
      unfold lichessCall
      rw [if_neg hge, if_neg (by omega), if_pos rfl]

/-- C8 (witness): concrete instantiations of both sides — a request at
`now = 50` against `backoffUntil = 100` fails fast with a 1 s wait and an
untouched state; a 429 handled at `tResp = 700` sets `backoffUntil` to
`60700`. -/
theorem lichessCall_rate_limit_spec_witness :
    ((50 : Int) < (100 : Int) ∧
      lichessCall ⟨0, 100⟩ 50 60 70 200 0 =
        ⟨.rateLimited "Rate limited. Please wait 1s before next analysis.", ⟨0, 100⟩, false, 0⟩) ∧
    (¬ (500 : Int) < (0 : Int) ∧
      (lichessCall ⟨0, 0⟩ 500 600 700 429 0).state.backoffUntil = 60700) := by
  constructor
  · refine ⟨by norm_num, ?_⟩
    have h := (lichessCall_rate_limit_spec ⟨0, 100⟩ 50 60 70 200 0).1 (by norm_num)
    rw [h]
    rfl
  · refine ⟨by norm_num, ?_⟩
    have h := ((lichessCall_rate_limit_spec ⟨0, 0⟩ 500 600 700 429 0).2 (by norm_num)).2.2.2 rfl
    rw [h]
    rfl

/-- C1 (counterexample): on `cexVisionResult` both candidates validate and
their boards differ on b1, and the resolver does pick the pieces-derived
board, but it tags `recoveryMethod = "pieces-array"`, not
`"piece-list-preferred"` as the claim states. -/
theorem evaluateVisionResult_tag_is_pieces_array :
    (∃ fd, buildFenForAnalysis true cexVisionResult.fen cexVisionResult.turn = some fd ∧
      validateFEN fd.normalized = .ok) ∧
    (piecesResultOf cexVisionResult).isSome = true ∧
    getFenPieceAtSquare
        (fenBoardOf (buildFenForAnalysis true cexVisionResult.fen cexVisionResult.turn))
        ['b', '1'] ≠
      getFenPieceAtSquare (piecesBoardOf (piecesResultOf cexVisionResult)) ['b', '1'] ∧
    (evaluateVisionResult true cexVisionResult).recoveryMethod = some "pieces-array" ∧
    (some "pieces-array" : Option String) ≠ some "piece-list-preferred" := by
  refine ⟨⟨⟨String.toList "k7/8/8/8/8/8/8/K7 w", String.toList "k7/8/8/8/8/8/8/K7 w",
      String.toList "k7/8/8/8/8/8/8/K7 w - - 0 1"⟩, by decide, by decide⟩,
    by decide, by decide, by decide, by decide⟩

/-- C1 (amended): whenever the run-length candidate's normalized FEN
validates, the pieces candidate survives (`piecesResultOf` is `some`), and
the two derived board encodings differ on at least one square, the
resolver returns the pieces-derived FEN as both `fenForStockfish` and
`normalizedFen` and tags `recoveryMethod = "pieces-array"`. -/
theorem evaluateVisionResult_prefers_pieces (infer : Bool) (result : VisionResult)
    (fd : FenData) (pf : Str)
    (hfd : buildFenForAnalysis infer result.fen result.turn = some fd)
    (hval : validateFEN fd.normalized = .ok)
    (hpf : piecesResultOf result = some pf)
    (hdiff : ∃ sq : Str, getFenPieceAtSquare (fenBoardOf (some fd)) sq ≠
      getFenPieceAtSquare (piecesBoardOf (some pf)) sq) :
    evaluateVisionResult infer result = ⟨some pf, some pf, .ok, some "pieces-array"⟩ := by
  have hne : (fenBoardOf (some fd) == piecesBoardOf (some pf)) = false := by
    rcases hdiff with ⟨sq, hsq⟩
    refine beq_eq_false_iff_ne.mpr fun he => hsq ?_
    rw [he]
  simp only [evaluateVisionResult, hfd, hpf, hval, Option.map_some', hne]
  rfl

/-- C1 (witness for the amended theorem): the amended resolution applied to
the concrete disagreeing response. -/
theorem evaluateVisionResult_prefers_pieces_witness :
    evaluateVisionResult true cexVisionResult =
      ⟨some (String.toList "k7/8/8/8/8/8/8/KQ6 w - - 0 1"),
        some (String.toList "k7/8/8/8/8/8/8/KQ6 w - - 0 1"), .ok, some "pieces-array"⟩ :=
  evaluateVisionResult_prefers_pieces true cexVisionResult
    ⟨String.toList "k7/8/8/8/8/8/8/K7 w", String.toList "k7/8/8/8/8/8/8/K7 w",
      String.toList "k7/8/8/8/8/8/8/K7 w - - 0 1"⟩
    (String.toList "k7/8/8/8/8/8/8/KQ6 w - - 0 1")
    (by decide) (by decide) (by decide)
    ⟨['b', '1'], by decide⟩

/-- C2: in the vision phase of `handleAnalysis`, when the first attempt's
evaluation is invalid exactly one retry call is made (the call count is 2
in every sub-branch); if the retry's evaluation is also invalid the phase
terminates with a failure whose message is the fixed prefix followed
character-for-character by the retry's validation diagnostic; and the
outcome never depends on any vision call beyond the first two. -/
theorem analysisVisionPhase_single_retry (infer : Bool)
    (oracle : Nat → VisionCallResult) (r1 : VisionResult)
    (h0 : oracle 0 = .ok r1)
    (hinv : (evaluateVisionResult infer r1).validation ≠ .ok) :
    (analysisVisionPhase infer oracle).2 = 2 ∧
    (∀ r2 msg, oracle 1 = .ok r2 → (evaluateVisionResult infer r2).validation = .err msg →
      analysisVisionPhase infer oracle = (.failure ("Vision returned invalid FEN: " ++ msg), 2)) ∧
    (∀ oracle2 : Nat → VisionCallResult, oracle2 0 = oracle 0 → oracle2 1 = oracle 1 →
      analysisVisionPhase infer oracle2 = analysisVisionPhase infer oracle) := by
  refine ⟨?_, ?_, ?_⟩
  · simp only [analysisVisionPhase, h0]
    rw [if_neg hinv]
    rcases oracle 1 with r2 | m
    · dsimp only
      split <;> rfl
    · rfl
  · intro r2 msg h1 h2
    simp only [analysisVisionPhase, h0, h1]
    rw [if_neg hinv, if_neg (by rw [h2]; exact fun h => VRes.noConfusion h), h2]
    rfl
  · intro oracle2 e0 e1
    simp only [analysisVisionPhase, e0, e1]

/-- C2 (witness): an oracle answering every call with an empty Vision
response: the first evaluation is invalid, the retry's diagnostic
`No FEN provided` is surfaced verbatim after the fixed prefix, and exactly
two calls are made. -/
theorem analysisVisionPhase_single_retry_witness :
    ((fun _ : Nat => VisionCallResult.ok ⟨none, none, none⟩) 0 =
      VisionCallResult.ok ⟨none, none, none⟩) ∧
    (evaluateVisionResult true ⟨none, none, none⟩).validation ≠ .ok ∧
    (analysisVisionPhase true (fun _ => VisionCallResult.ok ⟨none, none, none⟩)).2 = 2 ∧
    analysisVisionPhase true (fun _ => VisionCallResult.ok ⟨none, none, none⟩) =
      (.failure ("Vision returned invalid FEN: " ++ "No FEN provided"), 2) := by
  have h := analysisVisionPhase_single_retry true
    (fun _ => VisionCallResult.ok ⟨none, none, none⟩) ⟨none, none, none⟩ rfl (by decide)
  exact ⟨rfl, by decide, h.1, h.2.1 ⟨none, none, none⟩ "No FEN provided" rfl (by decide)⟩

theorem PieceCounts.add_zero (c : PieceCounts) : c.add PieceCounts.zero = c := by
  cases c
  simp [PieceCounts.add, PieceCounts.zero]

theorem PieceCounts.zero_add (c : PieceCounts) : PieceCounts.zero.add c = c := by
  cases c
  simp [PieceCounts.add, PieceCounts.zero]

theorem PieceCounts.add_assoc (a b c : PieceCounts) :
    (a.add b).add c = a.add (b.add c) := by
  cases a
  cases b
  cases c
  simp [PieceCounts.add]
  omega

theorem rankCounts_nil : rankCounts [] = PieceCounts.zero := by
  simp [rankCounts, PieceCounts.zero]

theorem rankCounts_cons (c : Char) (r : Str) :
    rankCounts (c :: r) = (rankCounts [c]).add (rankCounts r) := by
  simp only [rankCounts, PieceCounts.add, List.count_cons, List.countP_cons, List.count_nil,
    List.countP_nil, PieceCounts.mk.injEq]
  omega

theorem emptyDigit_not_piece (c : Char) (h : isEmptyDigitB c = true) :
    isPieceCharB c = false ∧ c ≠ 'K' ∧ c ≠ 'k' ∧ c ≠ 'P' ∧ c ≠ 'p' := by
  have hm : c ∈ String.toList "12345678" := by
    simpa [isEmptyDigitB] using h
  fin_cases hm <;> decide

theorem rankCounts_cons_digit (c : Char) (r : Str) (h : isEmptyDigitB c = true) :
    rankCounts (c :: r) = rankCounts r := by
  obtain ⟨h1, h2, h3, h4, h5⟩ := emptyDigit_not_piece c h
  simp only [rankCounts, List.count_cons, List.countP_cons, PieceCounts.mk.injEq, h1]
  simp only [Bool.false_and, if_false, Nat.add_zero, beq_iff_eq]
  exact ⟨by simp [h2], by simp [h3], by simp [h4], by simp [h5], rfl, rfl⟩

set_option maxRecDepth 4000 in
theorem bump_clean (c : Char) (rankNum : Nat) (cnt : PieceCounts)
    (hc : isPieceCharB c = true)
    (hp : (rankNum = 1 ∨ rankNum = 8) → c ≠ 'P' ∧ c ≠ 'p') :
    bump c rankNum cnt = .ok (cnt.add (rankCounts [c])) := by
  have hm : c ∈ String.toList "pnbrqkPNBRQK" := by simpa [isPieceCharB] using hc
  have hP : c = 'P' → ¬(rankNum = 1 ∨ rankNum = 8) := fun hcP h8 => (hp h8).1 hcP
  have hp2 : c = 'p' → ¬(rankNum = 1 ∨ rankNum = 8) := fun hcp h8 => (hp h8).2 hcp
  clear hp hc
  fin_cases hm <;>
    simp_all [bump, rankCounts, PieceCounts.add, PieceCounts.mk.injEq] <;>
    decide

set_option maxRecDepth 4000 in
theorem bump_ok_dest (c : Char) (rankNum : Nat) (cnt cnt' : PieceCounts)
    (hc : isPieceCharB c = true) (h : bump c rankNum cnt = .ok cnt') :
    ((rankNum = 1 ∨ rankNum = 8) → c ≠ 'P' ∧ c ≠ 'p') ∧
      cnt' = cnt.add (rankCounts [c]) := by
  have hm : c ∈ String.toList "pnbrqkPNBRQK" := by simpa [isPieceCharB] using hc
  by_cases h8 : rankNum = 1 ∨ rankNum = 8
  · fin_cases hm <;> simp_all [bump, rankCounts, PieceCounts.add, PieceCounts.mk.injEq] <;>
      (try constructor) <;> (try intro hx) <;> (try omega) <;> decide
  · fin_cases hm <;> simp_all [bump, rankCounts, PieceCounts.add, PieceCounts.mk.injEq] <;>
      (try constructor) <;> (try intro hx) <;> (try omega) <;> decide

theorem scanRankChars_clean (rankNum : Nat) (r : Str) (squares : Nat) (cnt : PieceCounts)
    (hleg : ∀ c ∈ r, (isEmptyDigitB c || isPieceCharB c) = true)
    (hpawn : (rankNum = 1 ∨ rankNum = 8) → 'P' ∉ r ∧ 'p' ∉ r) :
    scanRankChars rankNum r squares cnt =
      .ok (squares + rankSquares r, cnt.add (rankCounts r)) := by
  induction r generalizing squares cnt with
  | nil =>
    simp only [scanRankChars, rankSquares, List.map_nil, List.sum_nil, Nat.add_zero,
      rankCounts_nil, PieceCounts.add_zero]
  | cons c rest ih =>
    have hc := hleg c (List.mem_cons_self c rest)
    have hlegr : ∀ x ∈ rest, (isEmptyDigitB x || isPieceCharB x) = true :=
      fun x hx => hleg x (List.mem_cons_of_mem c hx)
    have hpawnr : (rankNum = 1 ∨ rankNum = 8) → 'P' ∉ rest ∧ 'p' ∉ rest := by
      intro h8
      obtain ⟨hP, hp⟩ := hpawn h8
      exact ⟨fun hx => hP (List.mem_cons_of_mem c hx),
        fun hx => hp (List.mem_cons_of_mem c hx)⟩
    by_cases hd : isEmptyDigitB c = true
    · rw [scanRankChars, if_pos hd, ih _ _ hlegr hpawnr, rankCounts_cons_digit c rest hd]
      simp only [rankSquares, List.map_cons, List.sum_cons, if_pos hd]
      rw [Nat.add_assoc]
    · have hpc : isPieceCharB c = true := by
        rcases Bool.or_eq_true_iff.mp hc with h | h
        · exact absurd h hd
        · exact h
      have hcp : (rankNum = 1 ∨ rankNum = 8) → c ≠ 'P' ∧ c ≠ 'p' := by
        intro h8
        obtain ⟨hP, hp⟩ := hpawn h8
        exact ⟨fun he => hP (he ▸ List.mem_cons_self c rest),
          fun he => hp (he ▸ List.mem_cons_self c rest)⟩
      rw [scanRankChars, if_neg hd, if_pos hpc, bump_clean c rankNum cnt hpc hcp]
      dsimp only
      rw [ih _ _ hlegr hpawnr, rankCounts_cons c rest]
      simp only [rankSquares, List.map_cons, List.sum_cons, if_neg hd]
      rw [Nat.add_assoc, PieceCounts.add_assoc]

theorem scanRankChars_ok_dest (rankNum : Nat) (r : Str) (squares : Nat)
    (cnt : PieceCounts) (out : Nat × PieceCounts)
    (h : scanRankChars rankNum r squares cnt = .ok out) :
    (∀ c ∈ r, (isEmptyDigitB c || isPieceCharB c) = true) ∧
      ((rankNum = 1 ∨ rankNum = 8) → 'P' ∉ r ∧ 'p' ∉ r) ∧
      out = (squares + rankSquares r, cnt.add (rankCounts r)) := by
  induction r generalizing squares cnt with
  | nil =>
    simp only [scanRankChars, Except.ok.injEq] at h
    refine ⟨by simp, by simp, ?_⟩
    simp only [rankSquares, List.map_nil, List.sum_nil, Nat.add_zero, rankCounts_nil,
      PieceCounts.add_zero]
    exact h.symm
  | cons c rest ih =>
    rw [scanRankChars] at h
    by_cases hd : isEmptyDigitB c = true
    · rw [if_pos hd] at h
      obtain ⟨hleg, hpawn, hout⟩ := ih _ _ h
      obtain ⟨hnp, hK, hk, hP, hp⟩ := emptyDigit_not_piece c hd
      refine ⟨?_, ?_, ?_⟩
      · intro x hx
        rcases List.mem_cons.mp hx with he | hx
        · subst he
          simp [hd]
        · exact hleg x hx
      · intro h8
        obtain ⟨hP2, hp2⟩ := hpawn h8
        constructor
        · intro hx
          rcases List.mem_cons.mp hx with he | hx
          · exact hP he.symm
          · exact hP2 hx
        · intro hx
          rcases List.mem_cons.mp hx with he | hx
          · exact hp he.symm
          · exact hp2 hx
      · rw [hout, rankCounts_cons_digit c rest hd]
        simp only [rankSquares, List.map_cons, List.sum_cons, if_pos hd]
        rw [Nat.add_assoc]
    · rw [if_neg hd] at h
      by_cases hpc : isPieceCharB c = true
      · rw [if_pos hpc] at h
        rcases hb : bump c rankNum cnt with e | cnt2
        · rw [hb] at h
          exact absurd h (by simp)
        · rw [hb] at h
          dsimp only at h
          obtain ⟨hcp, hcnt2⟩ := bump_ok_dest c rankNum cnt cnt2 hpc hb
          obtain ⟨hleg, hpawn, hout⟩ := ih _ _ h
          refine ⟨?_, ?_, ?_⟩
          · intro x hx
            rcases List.mem_cons.mp hx with he | hx
            · subst he
              simp [hpc]
            · exact hleg x hx
          · intro h8
            obtain ⟨hcP, hcp'⟩ := hcp h8
            obtain ⟨hP2, hp2⟩ := hpawn h8
            constructor
            · intro hx
              rcases List.mem_cons.mp hx with he | hx
              · exact hcP he.symm
              · exact hP2 hx
            · intro hx
              rcases List.mem_cons.mp hx with he | hx
              · exact hcp' he.symm
              · exact hp2 hx
          · rw [hout, hcnt2, rankCounts_cons c rest]
            simp only [rankSquares, List.map_cons, List.sum_cons, if_neg hd]
            rw [Nat.add_assoc, PieceCounts.add_assoc]
      · rw [if_neg hpc] at h
        exact absurd h (by simp)

theorem rankCleanAtB_iff (rankNum : Nat) (r : Str) :
    rankCleanAtB rankNum r = true ↔
      ((∀ c ∈ r, (isEmptyDigitB c || isPieceCharB c) = true) ∧
        ((rankNum = 1 ∨ rankNum = 8) → 'P' ∉ r ∧ 'p' ∉ r) ∧
        rankSquares r = 8) := by
  by_cases h8 : rankNum = 1 ∨ rankNum = 8 <;>
    simp [rankCleanAtB, h8, List.all_eq_true, and_assoc]

theorem scanRanks_clean (ranks : List Str) (i : Nat) (cnt : PieceCounts)
    (h : boardCleanFromB i ranks = true) :
    scanRanks ranks i cnt = .ok (cnt.add (totalCounts ranks)) := by
  induction ranks generalizing i cnt with
  | nil =>
    simp [scanRanks, totalCounts, PieceCounts.add_zero]
  | cons r rest ih =>
    rw [boardCleanFromB, Bool.and_eq_true] at h
    obtain ⟨h1, h2⟩ := h
    obtain ⟨hleg, hpawn, hsum⟩ := (rankCleanAtB_iff (8 - i) r).mp h1
    rw [scanRanks, scanRankChars_clean (8 - i) r 0 cnt hleg hpawn]
    dsimp only
    rw [Nat.zero_add, hsum]
    rw [if_neg (by omega)]
    rw [ih _ _ h2, totalCounts, PieceCounts.add_assoc]

theorem scanRanks_ok_dest (ranks : List Str) (i : Nat) (cnt cnt' : PieceCounts)
    (h : scanRanks ranks i cnt = .ok cnt') :
    boardCleanFromB i ranks = true ∧ cnt' = cnt.add (totalCounts ranks) := by
  induction ranks generalizing i cnt with
  | nil =>
    simp only [scanRanks, Except.ok.injEq] at h
    exact ⟨rfl, by rw [totalCounts, PieceCounts.add_zero, h]⟩
  | cons r rest ih =>
    rw [scanRanks] at h
    rcases hs : scanRankChars (8 - i) r 0 cnt with e | out
    · rw [hs] at h
      exact absurd h (by simp)
    · rw [hs] at h
      dsimp only at h
      obtain ⟨hleg, hpawn, hout⟩ := scanRankChars_ok_dest (8 - i) r 0 cnt out hs
      by_cases hsq : out.1 ≠ 8
      · rw [if_pos hsq] at h
        exact absurd h (by simp)
      · rw [if_neg hsq] at h
        push_neg at hsq
        have hsum : rankSquares r = 8 := by
          rw [hout] at hsq
          simpa using hsq
        have hcnt : out.2 = cnt.add (rankCounts r) := by
          rw [hout]
        rw [hcnt] at h
        obtain ⟨hclean, hrest⟩ := ih _ _ h
        refine ⟨?_, ?_⟩
        · rw [boardCleanFromB, Bool.and_eq_true]
          exact ⟨(rankCleanAtB_iff (8 - i) r).mpr ⟨hleg, hpawn, hsum⟩, hclean⟩
        · rw [hrest, totalCounts, PieceCounts.add_assoc]

theorem checkCounts_ok_iff (cnt : PieceCounts) (t : Str) :
    checkCounts cnt t = .ok ↔ countsOk cnt ∧ turnOk t := by
  unfold checkCounts countsOk turnOk
  split_ifs with h1 h2 h3 h4 h5 h6 h7
  · simp [h1]
  · simp [h2]
  · simp [h3]
  · simp [h4]
  · simp [h5]
  · simp [h6]
  · constructor
    · intro hx
      exact absurd hx (by simp)
    · intro ⟨_, ht⟩
      rcases ht with ht | ht | ht <;> simp [ht] at h7
  · constructor
    · intro _
      refine ⟨⟨by omega, by omega, by omega, by omega, by omega, by omega⟩, ?_⟩
      by_cases he : t = []
      · exact Or.inl he
      · rcases not_and_or.mp h7 with hc | hc
        · exact absurd he (by simpa using hc)
        · rcases not_and_or.mp hc with hc | hc
          · exact Or.inr (Or.inl (by simpa using hc))
          · exact Or.inr (Or.inr (by simpa using hc))
    · intro _
      rfl

theorem validateFEN_unfold (fen : Str) (h0 : fen ≠ [])
    (h1 : 2 ≤ (fenParts fen).length) :
    validateFEN fen =
      (if (fenRanksOf fen).length ≠ 8 then
        VRes.err ("Board should have 8 ranks, got " ++ toString (fenRanksOf fen).length)
      else
        match scanRanks (fenRanksOf fen) 0 PieceCounts.zero with
        | .error e => VRes.err e
        | .ok cnt => checkCounts cnt ((fenParts fen).getD 1 [])) := by
  have hlt : ¬ (fenParts fen).length < 2 := by omega
  have hfold : List.splitOn '/' ((fenParts fen).getD 0 []) = fenRanksOf fen := rfl
  simp only [validateFEN]
  rw [if_neg h0, if_neg hlt, hfold]

/-- C3 (amended): `validateFEN` checks, in order: exactly 8 ranks; then a
per-rank scan in which an illegal character or a pawn on rank 1/8 is
reported at the offending character, followed by that rank's 8-square sum
check; after all ranks, exactly one king per color, then pawn limits, then
piece totals, then the turn field. Formally: (i) a wrong rank count gives
that diagnostic; (ii) validity is equivalent to the conjunction of all the
declarative rules; (iii) whenever all ranks scan clean, the result is
exactly the ordered count/turn check chain `checkCounts` applied to the
declarative counters; (iv) representative diagnostics of the rules are
pairwise distinct. -/
theorem validateFEN_rule_order (fen : Str) (h0 : fen ≠ [])
    (h1 : 2 ≤ (fenParts fen).length) :
    ((fenRanksOf fen).length ≠ 8 →
      validateFEN fen =
        .err ("Board should have 8 ranks, got " ++ toString (fenRanksOf fen).length)) ∧
    (validateFEN fen = .ok ↔
      ((fenRanksOf fen).length = 8 ∧ boardCleanFromB 0 (fenRanksOf fen) = true ∧
        countsOk (totalCounts (fenRanksOf fen)) ∧ turnOk ((fenParts fen).getD 1 []))) ∧
    ((fenRanksOf fen).length = 8 → boardCleanFromB 0 (fenRanksOf fen) = true →
      validateFEN fen = checkCounts (totalCounts (fenRanksOf fen)) ((fenParts fen).getD 1 [])) ∧
    ["Board should have 8 ranks, got 7", "Rank 8 has 7 squares, should have 8",
      "Invalid character \x27x\x27 in rank 8", "Must have exactly 1 white King, found 0",
      "Must have exactly 1 black King, found 0", "White pawn on rank 8 is illegal",
      "Black pawn on rank 1 is illegal", "White has 9 pawns, maximum is 8",
      "Black has 9 pawns, maximum is 8", "White has 17 pieces, maximum is 16",
      "Black has 17 pieces, maximum is 16"].Nodup := by
  rw [validateFEN_unfold fen h0 h1]
  refine ⟨?_, ?_, ?_, by decide⟩
  · intro hn
    rw [if_pos hn]
  · constructor
    · intro hok
      by_cases h8 : (fenRanksOf fen).length ≠ 8
      · rw [if_pos h8] at hok
        exact absurd hok (by simp)
      · push_neg at h8
        rw [if_neg (by simpa using h8)] at hok
        rcases hs : scanRanks (fenRanksOf fen) 0 PieceCounts.zero with e | cnt
        · rw [hs] at hok
          exact absurd hok (by simp)
        · rw [hs] at hok
          dsimp only at hok
          obtain ⟨hclean, hcnt⟩ := scanRanks_ok_dest (fenRanksOf fen) 0 PieceCounts.zero cnt hs
          rw [hcnt, PieceCounts.zero_add] at hok
          exact ⟨h8, hclean, (checkCounts_ok_iff _ _).mp hok⟩
    · intro ⟨h8, hclean, hcounts, hturn⟩
      rw [if_neg (by simpa using h8), scanRanks_clean _ _ _ hclean]
      dsimp only
      rw [PieceCounts.zero_add]
      exact (checkCounts_ok_iff _ _).mpr ⟨hcounts, hturn⟩
  · intro h8 hclean
    rw [if_neg (by simpa using h8), scanRanks_clean _ _ _ hclean]
    dsimp only
    rw [PieceCounts.zero_add]

/-- C3 (counterexample): the board `P7/8/8/8/8/8/8/8` satisfies the
claim's rules 1–3 (8 ranks, all sums 8, only legal characters) and
violates rule 4 (no white king), so under the claimed order the rule-4
diagnostic would be returned; the code instead returns rule 5's pawn-rank
diagnostic, because that check runs inside the rank scan, before the king
count. -/
theorem validateFEN_diag_order_cex :
    (fenRanksOf (String.toList "P7/8/8/8/8/8/8/8 w")).length = 8 ∧
    (∀ r ∈ fenRanksOf (String.toList "P7/8/8/8/8/8/8/8 w"),
      ∀ c ∈ r, (isEmptyDigitB c || isPieceCharB c) = true) ∧
    (∀ r ∈ fenRanksOf (String.toList "P7/8/8/8/8/8/8/8 w"), rankSquares r = 8) ∧
    (totalCounts (fenRanksOf (String.toList "P7/8/8/8/8/8/8/8 w"))).wk = 0 ∧
    validateFEN (String.toList "P7/8/8/8/8/8/8/8 w") =
      .err "White pawn on rank 8 is illegal" ∧
    "White pawn on rank 8 is illegal" ≠ "Must have exactly 1 white King, found 0" := by
  refine ⟨by decide, by decide, by decide, by decide, by decide, by decide⟩

/-- C3 (witness for the amended theorem): a concrete two-king FEN is
declared valid through the rule equivalence. -/
theorem validateFEN_rule_order_witness :
    (String.toList "k7/8/8/8/8/8/8/K7 w" ≠ []) ∧
    2 ≤ (fenParts (String.toList "k7/8/8/8/8/8/8/K7 w")).length ∧
    validateFEN (String.toList "k7/8/8/8/8/8/8/K7 w") = .ok :=
  ⟨by decide, by decide,
    (validateFEN_rule_order (String.toList "k7/8/8/8/8/8/8/K7 w") (by decide)
        (by decide)).2.1.mpr (by decide)⟩

theorem getD_replicate_none (e k : Nat) :
    (List.replicate e (none : Option Char)).getD k none = none := by
  induction e generalizing k with
  | zero => rfl
  | succ n ih =>
    cases k with
    | zero => rfl
    | succ k => exact ih k

theorem flushDigit (e : Nat) (h1 : 1 ≤ e) (h8 : e ≤ 8) :
    ∃ d : Char, (toString e).toList = [d] ∧ isEmptyDigitB d = true ∧ digitVal d = e := by
  interval_cases e <;> exact ⟨_, rfl, by decide, by decide⟩

theorem fenWalk_encAux (row : List (Option Char)) :
    ∀ (e col file : Nat), col ≤ file → e + row.length ≤ 8 →
      (∀ c : Char, some c ∈ row → isEmptyDigitB c = false) →
      fenWalk (encAux row e) col file = (List.replicate e none ++ row).getD (file - col) none := by
  induction row with
  | nil =>
    intro e col file hcol h8 hchars
    by_cases he : e = 0
    · subst he
      simp [encAux, fenWalk]
    · obtain ⟨d, hd1, hd2, hd3⟩ := flushDigit e (by omega) (by simpa using h8)
      rw [encAux, if_neg he, hd1]
      rw [fenWalk]
      simp only [hd2, if_true, hd3]
      rw [List.append_nil]
      split
      · rw [getD_replicate_none]
      · rw [getD_replicate_none, fenWalk]
  | cons head rest ih =>
    intro e col file hcol h8 hchars
    have h8r : 0 + rest.length ≤ 8 := by
      simp only [List.length_cons] at h8
      omega
    have hchr : ∀ c : Char, some c ∈ rest → isEmptyDigitB c = false :=
      fun c hc => hchars c (List.mem_cons_of_mem _ hc)
    cases head with
    | none =>
      rw [encAux]
      rw [ih (e + 1) col file hcol (by simp only [List.length_cons] at h8 ⊢; omega) hchr]
      rw [List.replicate_succ', List.append_assoc]
      rfl
    | some c =>
      have hcd : isEmptyDigitB c = false := hchars c (List.mem_cons_self _ _)
      have F : ∀ col', col' ≤ file →
          fenWalk (c :: encAux rest 0) col' file =
            (some c :: rest).getD (file - col') none := by
        intro col' hcol'
        by_cases hce : col' = file
        · subst hce
          simp only [fenWalk, hcd, Bool.false_eq_true, if_false, if_pos rfl]
          simp
        · have hlt : col' < file := lt_of_le_of_ne hcol' hce
          simp only [fenWalk, hcd, Bool.false_eq_true, if_false]
          rw [if_neg hce, if_neg (by omega)]
          rw [ih 0 (col' + 1) file (by omega) h8r hchr]
          rw [List.replicate, List.nil_append]
          have hfc : file - col' = (file - (col' + 1)) + 1 := by omega
          rw [hfc]
          rfl
      by_cases he : e = 0
      · subst he
        rw [encAux]
        simp only [if_pos rfl, List.nil_append, List.replicate, Nat.sub_zero]
        exact F col hcol
      · obtain ⟨d, hd1, hd2, hd3⟩ := flushDigit e (by omega)
          (by simp only [List.length_cons] at h8; omega)
        rw [encAux, if_neg he, hd1]
        rw [List.cons_append, List.nil_append]
        rw [fenWalk]
        simp only [hd2, if_true, hd3]
        by_cases hbig : col + e > file
        · rw [if_pos hbig]
          rw [List.getD_append _ _ _ _ (by simp only [List.length_replicate]; omega),
            getD_replicate_none]
        · rw [if_neg hbig]
          rw [F (col + e) (by omega)]
          rw [List.getD_append_right _ _ _ _ (by simp only [List.length_replicate]; omega)]
          rw [List.length_replicate]
          have : file - col - e = file - (col + e) := by omega
          rw [this]

theorem mem_encAux (row : List (Option Char)) :
    ∀ (e : Nat), e + row.length ≤ 8 →
      ∀ x ∈ encAux row e, isEmptyDigitB x = true ∨ some x ∈ row := by
  induction row with
  | nil =>
    intro e h8 x hx
    by_cases he : e = 0
    · subst he
      simp [encAux] at hx
    · obtain ⟨d, hd1, hd2, _⟩ := flushDigit e (by omega) (by simpa using h8)
      rw [encAux, if_neg he, hd1] at hx
      rcases List.mem_singleton.mp hx with rfl
      exact Or.inl hd2
  | cons head rest ih =>
    intro e h8 x hx
    have h8r : 0 + rest.length ≤ 8 := by
      simp only [List.length_cons] at h8
      omega
    cases head with
    | none =>
      rw [encAux] at hx
      rcases ih (e + 1) (by simp only [List.length_cons] at h8 ⊢; omega) x hx with hd | hm
      · exact Or.inl hd
      · exact Or.inr (List.mem_cons_of_mem _ hm)
    | some c =>
      rw [encAux] at hx
      rcases List.mem_append.mp hx with hfl | hcx
      · by_cases he : e = 0
        · subst he
          simp at hfl
        · obtain ⟨d, hd1, hd2, _⟩ := flushDigit e (by omega)
            (by simp only [List.length_cons] at h8; omega)
          rw [if_neg he, hd1] at hfl
          rcases List.mem_singleton.mp hfl with rfl
          exact Or.inl hd2
      · rcases List.mem_cons.mp hcx with rfl | hx2
        · exact Or.inr (List.mem_cons_self _ _)
        · rcases ih 0 h8r x hx2 with hd | hm
          · exact Or.inl hd
          · exact Or.inr (List.mem_cons_of_mem _ hm)

theorem find?_congr (l : List PieceEntry) (p q : PieceEntry → Bool)
    (h : ∀ e ∈ l, p e = q e) : l.find? p = l.find? q := by
  induction l with
  | nil => rfl
  | cons x xs ih =>
    rw [List.find?_cons, List.find?_cons, h x (List.mem_cons_self x xs),
      ih fun e he => h e (List.mem_cons_of_mem x he)]

theorem find?_reverse_of_pairwise (l : List PieceEntry) (p : PieceEntry → Bool)
    (h : l.Pairwise fun a b => ¬(p a = true ∧ p b = true)) :
    l.reverse.find? p = l.find? p := by
  induction l with
  | nil => rfl
  | cons x xs ih =>
    rw [List.pairwise_cons] at h
    obtain ⟨hx, hxs⟩ := h
    cases hp : p x with
    | true =>
      have hnone : xs.find? p = none :=
        List.find?_eq_none.mpr fun e he hpe => hx e he ⟨hp, hpe⟩
      have hnone2 : xs.reverse.find? p = none :=
        List.find?_eq_none.mpr fun e he hpe =>
          hx e (List.mem_reverse.mp he) ⟨hp, hpe⟩
      rw [List.reverse_cons, List.find?_append, hnone2]
      simp [List.find?_cons, hp]
    | false =>
      rw [List.reverse_cons, List.find?_append, ih hxs]
      simp [List.find?_cons, hp]

theorem foldl_place_apply (pieces : List PieceEntry) :
    ∀ (b : Nat → Nat → Option Char) (r f : Nat),
      (pieces.foldl
        (fun b e =>
          let file := (e.square.headD ' ').toNat - 97
          let rank := (e.square.getD 1 ' ').toNat - 49
          fun r f => if r = rank ∧ f = file then e.piece.head? else b r f)
        b) r f =
      match pieces.reverse.find? (fun e =>
          decide (r = (e.square.getD 1 ' ').toNat - 49 ∧ f = (e.square.headD ' ').toNat - 97)) with
      | some e => e.piece.head?
      | none => b r f := by
  induction pieces with
  | nil => intro b r f; rfl
  | cons e rest ih =>
    intro b r f
    rw [List.foldl_cons, ih, List.reverse_cons, List.find?_append]
    cases hfind : rest.reverse.find? (fun e =>
        decide (r = (e.square.getD 1 ' ').toNat - 49 ∧ f = (e.square.headD ' ').toNat - 97)) with
    | some e2 => rfl
    | none =>
      dsimp only [Option.none_or]
      rw [List.find?_cons]
      cases hp : decide (r = (e.square.getD 1 ' ').toNat - 49 ∧ f = (e.square.headD ' ').toNat - 97) with
      | true =>
        have hc := of_decide_eq_true hp
        rw [if_pos hc]
      | false =>
        have hc := of_decide_eq_false hp
        rw [if_neg hc]
        rfl

theorem placeAll_apply (pieces : List PieceEntry) (r f : Nat) :
    placeAll pieces r f =
      match pieces.reverse.find? (fun e =>
          decide (r = (e.square.getD 1 ' ').toNat - 49 ∧ f = (e.square.headD ' ').toNat - 97)) with
      | some e => e.piece.head?
      | none => none :=
  foldl_place_apply pieces (fun _ _ => none) r f

theorem foldl_place_cells (pieces : List PieceEntry)
    (hwf : ∀ e ∈ pieces, ∃ c, e.piece = [c] ∧ isPieceCharB c = true) :
    ∀ (b : Nat → Nat → Option Char),
      (∀ r f c, b r f = some c → isPieceCharB c = true) →
      ∀ r f c,
        (pieces.foldl
          (fun b e =>
            let file := (e.square.headD ' ').toNat - 97
            let rank := (e.square.getD 1 ' ').toNat - 49
            fun r f => if r = rank ∧ f = file then e.piece.head? else b r f)
          b) r f = some c → isPieceCharB c = true := by
  induction pieces with
  | nil => intro b hb r f c h; exact hb r f c h
  | cons e rest ih =>
    intro b hb r f c h
    rw [List.foldl_cons] at h
    refine ih (fun x hx => hwf x (List.mem_cons_of_mem e hx)) _ ?_ r f c h
    intro r' f' c' h'
    split at h'
    · obtain ⟨ce, hce, hpce⟩ := hwf e (List.mem_cons_self e rest)
      rw [hce] at h'
      simp only [List.head?_cons, Option.some.injEq] at h'
      rw [← h']
      exact hpce
    · exact hb r' f' c' h'

theorem placeAll_cells (pieces : List PieceEntry)
    (hwf : ∀ e ∈ pieces, ∃ c, e.piece = [c] ∧ isPieceCharB c = true)
    (r f : Nat) (c : Char) (h : placeAll pieces r f = some c) :
    isPieceCharB c = true :=
  foldl_place_cells pieces hwf _ (fun _ _ _ h' => by cases h') r f c h

theorem pieceChar_not_digit (c : Char) (h : isPieceCharB c = true) :
    isEmptyDigitB c = false := by
  have hm : c ∈ String.toList "pnbrqkPNBRQK" := by simpa [isPieceCharB] using h
  fin_cases hm <;> decide

theorem pieceChar_not_slash (c : Char) (h : isPieceCharB c = true) : c ≠ '/' := by
  have hm : c ∈ String.toList "pnbrqkPNBRQK" := by simpa [isPieceCharB] using h
  fin_cases hm <;> decide

theorem emptyDigit_not_slash (c : Char) (h : isEmptyDigitB c = true) : c ≠ '/' := by
  have hm : c ∈ String.toList "12345678" := by simpa [isEmptyDigitB] using h
  fin_cases hm <;> decide

theorem pvStep_cases (st : PVState) (entry? : Option PieceEntry) (st2 : PVState)
    (h : pvStep st entry? = .ok st2) :
    st2 = st ∨
    ∃ f r c, st2.cleaned = st.cleaned ++ [⟨[f, r], [c]⟩] ∧
      st2.seen = [f, r] :: st.seen ∧ st.seen.contains [f, r] = false ∧
      'a' ≤ f ∧ f ≤ 'h' ∧ '1' ≤ r ∧ r ≤ '8' ∧ isPieceCharB c = true := by
  match entry? with
  | none =>
    left
    injection h with h2
    exact h2.symm
  | some entry =>
    simp only [pvStep] at h
    split at h
    · left
      injection h with h2
      exact h2.symm
    · split at h
      · left
        injection h with h2
        exact h2.symm
      · split at h
        · left
          injection h with h2
          exact h2.symm
        · rename_i hsq hpc hseen
          push_neg at hsq
          obtain ⟨hlen, hf1, hf2, hr1, hr2⟩ := hsq
          push_neg at hpc
          obtain ⟨hplen, hpok⟩ := hpc
          right
          rcases hsqe : jsTrim (List.map Char.toLower entry.square) with _ | ⟨f, _ | ⟨r, _ | _⟩⟩ <;>
            rw [hsqe] at hlen <;> try simp at hlen
          rcases hpce : jsTrim entry.piece with _ | ⟨c, _ | _⟩ <;>
            rw [hpce] at hplen <;> try simp at hplen
          rw [hsqe] at hf1 hf2 hr1 hr2 hseen h
          rw [hpce] at hpok h
          simp only [List.headD_cons, List.getD_cons_succ, List.getD_cons_zero] at hf1 hf2 hr1 hr2 hpok h
          have hcontains : st.seen.contains [f, r] = false := by
            simpa using hseen
          refine ⟨f, r, c, ?_⟩
          split at h
          · split at h
            · cases h
            · injection h with h2
              subst h2
              refine ⟨by simp [apply_ite PVState.cleaned], by simp [apply_ite PVState.seen],
                hcontains, hf1, hf2, hr1, hr2, hpok⟩
          · split at h
            · split at h
              · cases h
              · injection h with h2
                subst h2
                refine ⟨by simp [apply_ite PVState.cleaned], by simp [apply_ite PVState.seen],
                  hcontains, hf1, hf2, hr1, hr2, hpok⟩
            · injection h with h2
              subst h2
              refine ⟨by simp [apply_ite PVState.cleaned], by simp [apply_ite PVState.seen],
                hcontains, hf1, hf2, hr1, hr2, hpok⟩

theorem pvLoop_inv (entries : List (Option PieceEntry)) :
    ∀ (st st' : PVState), pvLoop entries st = .ok st' →
      (∀ e ∈ st.cleaned, wfEntry e) →
      (st.cleaned.map (·.square)).Nodup →
      (∀ sq ∈ st.cleaned.map (·.square), sq ∈ st.seen) →
      (∀ e ∈ st'.cleaned, wfEntry e) ∧ (st'.cleaned.map (·.square)).Nodup := by
  induction entries with
  | nil =>
    intro st st' h hwf hnd _
    injection h with h2
    subst h2
    exact ⟨hwf, hnd⟩
  | cons e rest ih =>
    intro st st' h hwf hnd hseen
    rw [pvLoop] at h
    rcases hs : pvStep st e with msg | st2
    · rw [hs] at h
      cases h
    · rw [hs] at h
      dsimp only at h
      rcases pvStep_cases st e st2 hs with rfl | ⟨f, r, c, hcl, hsn, hcont, hf1, hf2, hr1, hr2, hpc⟩
      · exact ih _ st' h hwf hnd hseen
      · refine ih st2 st' h ?_ ?_ ?_
        · intro x hx
          rw [hcl] at hx
          rcases List.mem_append.mp hx with hx | hx
          · exact hwf x hx
          · rcases List.mem_singleton.mp hx with rfl
            exact ⟨⟨f, r, rfl, hf1, hf2, hr1, hr2⟩, ⟨c, rfl, hpc⟩⟩
        · rw [hcl, List.map_append, List.nodup_append]
          refine ⟨hnd, List.nodup_singleton _, fun sqx hsqx hsqx2 => ?_⟩
          simp only [List.map_cons, List.map_nil, List.mem_singleton] at hsqx2
          subst hsqx2
          have hm1 : [f, r] ∈ st.seen := hseen _ hsqx
          have hm2 : st.seen.contains [f, r] = true := List.elem_eq_true_of_mem hm1
          rw [hm2] at hcont
          cases hcont
        · intro sqx hsqx
          rw [hcl, List.map_append] at hsqx
          rw [hsn]
          rcases List.mem_append.mp hsqx with hx | hx
          · exact List.mem_cons_of_mem _ (hseen sqx hx)
          · simp only [List.map_cons, List.map_nil, List.mem_singleton] at hx
            subst hx
            exact List.mem_cons_self _ _

theorem validatePiecesArray_ok_dest (pieces : List (Option PieceEntry))
    (cleaned : List PieceEntry)
    (h : validatePiecesArray (some pieces) = .ok cleaned) :
    (∀ e ∈ cleaned, wfEntry e) ∧ (cleaned.map (·.square)).Nodup := by
  simp only [validatePiecesArray] at h
  split at h
  · cases h
  · rcases hl : pvLoop pieces PVState.init with msg | st
    · rw [hl] at h
      cases h
    · rw [hl] at h
      dsimp only at h
      have hinv := pvLoop_inv pieces PVState.init st hl
        (by intro e he; cases he) (by simp [PVState.init]) (by intro sq hsq; simp [PVState.init] at hsq)
      split at h
      · cases h
      · split at h
        · cases h
        · split at h
          · cases h
          · split at h
            · cases h
            · split at h
              · cases h
              · injection h with h2
                subst h2
                exact hinv

theorem charToNat_le_of_le {a b : Char} (h : a ≤ b) : a.toNat ≤ b.toNat := by
  rw [Char.le_def, UInt32.le_def] at h
  exact h

theorem char_eq_of_toNat_eq {a b : Char} (h : a.toNat = b.toNat) : a = b :=
  Char.eq_of_val_eq (UInt32.ext h)

theorem getD_range8_map' {α : Type} (g : Nat → α) (k : Nat) (hk : k < 8) (d : α) :
    ((List.range 8).map g).getD k d = g k := by
  interval_cases k <;> rfl

theorem buildFENBoardPart_ranks (cleaned : List PieceEntry)
    (hwf : ∀ e ∈ cleaned, ∃ c, e.piece = [c] ∧ isPieceCharB c = true) :
    (buildFENBoardPart cleaned).splitOn '/' =
      (List.range 8).map fun k => encAux (rowOf (placeAll cleaned) (7 - k)) 0 := by
  have hx : ∀ l ∈ (List.range 8).map (fun k => encAux (rowOf (placeAll cleaned) (7 - k)) 0),
      '/' ∉ l := by
    intro l hl hslash
    obtain ⟨k, _, rfl⟩ := List.mem_map.mp hl
    have h8 : 0 + (rowOf (placeAll cleaned) (7 - k)).length ≤ 8 := by simp [rowOf]
    rcases mem_encAux _ 0 h8 '/' hslash with hd | hm
    · exact emptyDigit_not_slash '/' hd rfl
    · obtain ⟨fx, _, hcell⟩ := List.mem_map.mp hm
      exact pieceChar_not_slash '/' (placeAll_cells cleaned hwf _ _ '/' hcell) rfl
  simp only [buildFENBoardPart]
  exact List.splitOn_intercalate _ '/' hx (by simp)

theorem buildFENBoardPart_ne_nil (cleaned : List PieceEntry)
    (hwf : ∀ e ∈ cleaned, ∃ c, e.piece = [c] ∧ isPieceCharB c = true) :
    buildFENBoardPart cleaned ≠ [] := by
  intro he
  have h2 := buildFENBoardPart_ranks cleaned hwf
  rw [he] at h2
  have h3 := congrArg List.length h2
  simp at h3

theorem fileCharBounds {a : Char} (h1 : 'a' ≤ a) (h2 : a ≤ 'h') :
    97 ≤ a.toNat ∧ a.toNat ≤ 104 :=
  ⟨le_trans (le_of_eq rfl) (charToNat_le_of_le h1),
    le_trans (charToNat_le_of_le h2) (le_of_eq rfl)⟩

theorem rankCharBounds {a : Char} (h1 : '1' ≤ a) (h2 : a ≤ '8') :
    49 ≤ a.toNat ∧ a.toNat ≤ 56 :=
  ⟨le_trans (le_of_eq rfl) (charToNat_le_of_le h1),
    le_trans (charToNat_le_of_le h2) (le_of_eq rfl)⟩

theorem buildFENFromPieces_boardPart (pieces : List PieceEntry) (turn : Option Str) :
    ∃ rest, buildFENFromPieces pieces turn = buildFENBoardPart pieces ++ ' ' :: rest := by
  simp only [buildFENFromPieces, List.append_assoc, List.cons_append]
  exact ⟨_, rfl⟩

/-- C5 (amended): for every piece list accepted by `validatePiecesArray`,
building the board encoding from the validation's cleaned output
(`buildFENFromPieces`, whose board field is `buildFENBoardPart`) and
reading back any of the 64 squares with `getFenPieceAtSquare` yields
exactly the cleaned placements: each cleaned square holds its piece and
every other square is empty. -/
theorem buildFEN_roundTrip (pieces : List (Option PieceEntry)) (cleaned : List PieceEntry)
    (turn : Option Str)
    (h : validatePiecesArray (some pieces) = .ok cleaned)
    (f r : Char) (hf1 : 'a' ≤ f) (hf2 : f ≤ 'h') (hr1 : '1' ≤ r) (hr2 : r ≤ '8') :
    getFenPieceAtSquare (buildFENBoardPart cleaned) [f, r] =
      ((cleaned.find? fun e => e.square == [f, r]).bind fun e => e.piece.head?) ∧
    (∃ rest, buildFENFromPieces cleaned turn = buildFENBoardPart cleaned ++ ' ' :: rest) := by
  refine ⟨?_, buildFENFromPieces_boardPart cleaned turn⟩
  obtain ⟨hwf, hnd⟩ := validatePiecesArray_ok_dest pieces cleaned h
  have hwfp : ∀ e ∈ cleaned, ∃ c, e.piece = [c] ∧ isPieceCharB c = true :=
    fun e he => (hwf e he).2
  obtain ⟨hfn1, hfn2⟩ := fileCharBounds hf1 hf2
  obtain ⟨hrn1, hrn2⟩ := rankCharBounds hr1 hr2
  simp only [getFenPieceAtSquare]
  rw [if_neg (by simp [buildFENBoardPart_ne_nil cleaned hwfp])]
  rw [if_neg (by omega)]
  rw [buildFENBoardPart_ranks cleaned hwfp]
  rw [if_neg (by simp)]
  have hk8 : ((8 : Int) - ((r.toNat : Int) - 48)).toNat < 8 := by omega
  rw [getD_range8_map' _ _ hk8]
  have hfile8 : (((f.toNat : Int) - 97)).toNat < 8 := by omega
  have hcells : ∀ c : Char,
      some c ∈ rowOf (placeAll cleaned) (7 - ((8 : Int) - ((r.toNat : Int) - 48)).toNat) →
        isEmptyDigitB c = false := by
    intro c hc
    obtain ⟨fx, _, hcell⟩ := List.mem_map.mp hc
    exact pieceChar_not_digit c (placeAll_cells cleaned hwfp _ _ c hcell)
  rw [fenWalk_encAux _ 0 0 _ (Nat.zero_le _) (by simp [rowOf]) hcells]
  rw [List.replicate, List.nil_append, Nat.sub_zero]
  rw [rowOf, getD_range8_map' _ _ hfile8]
  rw [placeAll_apply]
  have hnd2 : (cleaned.map (·.square)).Pairwise (· ≠ ·) := hnd
  have hpw0 : cleaned.Pairwise fun a b => a.square ≠ b.square := List.pairwise_map.mp hnd2
  have hpw : cleaned.Pairwise fun a b =>
      ¬((fun e => decide (7 - ((8 : Int) - ((r.toNat : Int) - 48)).toNat =
          (e.square.getD 1 ' ').toNat - 49 ∧
        ((f.toNat : Int) - 97).toNat = (e.square.headD ' ').toNat - 97)) a = true ∧
        (fun e => decide (7 - ((8 : Int) - ((r.toNat : Int) - 48)).toNat =
          (e.square.getD 1 ' ').toNat - 49 ∧
        ((f.toNat : Int) - 97).toNat = (e.square.headD ' ').toNat - 97)) b = true) := by
    refine List.Pairwise.imp_of_mem ?_ hpw0
    intro a b ha hb hne ⟨hpa, hpb⟩
    obtain ⟨⟨fa, ra, hsa, hfa1, hfa2, hra1, hra2⟩, _⟩ := hwf a ha
    obtain ⟨⟨fb, rb, hsb, hfb1, hfb2, hrb1, hrb2⟩, _⟩ := hwf b hb
    obtain ⟨hpa1, hpa2⟩ := of_decide_eq_true hpa
    obtain ⟨hpb1, hpb2⟩ := of_decide_eq_true hpb
    rw [hsa] at hpa1 hpa2
    rw [hsb] at hpb1 hpb2
    simp only [List.getD_cons_succ, List.getD_cons_zero, List.headD_cons] at hpa1 hpa2 hpb1 hpb2
    obtain ⟨hba1, hba2⟩ := fileCharBounds hfa1 hfa2
    obtain ⟨hba3, hba4⟩ := rankCharBounds hra1 hra2
    obtain ⟨hbb1, hbb2⟩ := fileCharBounds hfb1 hfb2
    obtain ⟨hbb3, hbb4⟩ := rankCharBounds hrb1 hrb2
    apply hne
    rw [hsa, hsb]
    have hfab : fa = fb := char_eq_of_toNat_eq (by omega)
    have hrab : ra = rb := char_eq_of_toNat_eq (by omega)
    rw [hfab, hrab]
  rw [find?_reverse_of_pairwise cleaned _ hpw]
  rw [find?_congr cleaned _ (fun e => e.square == [f, r]) ?_]
  · cases hfind : cleaned.find? fun e => e.square == [f, r] <;> rfl
  · intro e he
    obtain ⟨⟨fe, re, hse, hfe1, hfe2, hre1, hre2⟩, _⟩ := hwf e he
    obtain ⟨hbe1, hbe2⟩ := fileCharBounds hfe1 hfe2
    obtain ⟨hbe3, hbe4⟩ := rankCharBounds hre1 hre2
    beta_reduce
    rw [hse]
    simp only [List.getD_cons_succ, List.getD_cons_zero, List.headD_cons]
    by_cases hab : fe = f ∧ re = r
    · obtain ⟨rfl, rfl⟩ := hab
      rw [decide_eq_true (by omega)]
      simp
    · have hPfalse : ¬(7 - ((8 : Int) - ((r.toNat : Int) - 48)).toNat = re.toNat - 49 ∧
          ((f.toNat : Int) - 97).toNat = fe.toNat - 97) := by
        intro ⟨h1, h2⟩
        apply hab
        exact ⟨char_eq_of_toNat_eq (by omega), char_eq_of_toNat_eq (by omega)⟩
      rw [decide_eq_false hPfalse]
      have : ([fe, re] : Str) ≠ [f, r] := by
        intro he2
        apply hab
        injection he2 with he3 he4
        injection he4 with he5 _
        exact ⟨he3, he5⟩
      exact (beq_eq_false_iff_ne.mpr this).symm

/-- C5 (counterexample): the duplicate-square input `e1 → K, e1 → Q,
e8 → k` is accepted by `validatePiecesArray`, yet reading back square e1
gives `K`, not the listed piece `Q` of the second entry — the original
placements are not reproduced exactly. -/
theorem buildFEN_roundTrip_cex :
    validatePiecesArray
        (some [some ⟨['e', '1'], ['K']⟩, some ⟨['e', '1'], ['Q']⟩, some ⟨['e', '8'], ['k']⟩]) =
      .ok [⟨['e', '1'], ['K']⟩, ⟨['e', '8'], ['k']⟩] ∧
    getFenPieceAtSquare (buildFENBoardPart [⟨['e', '1'], ['K']⟩, ⟨['e', '8'], ['k']⟩])
      ['e', '1'] = some 'K' ∧
    (some 'K' : Option Char) ≠ some 'Q' := by
  refine ⟨rfl, by decide, by decide⟩

/-- C5 (witness for the amended theorem): round trip at a listed square
(e8) and an unlisted square (b3) of a concrete two-piece list. -/
theorem buildFEN_roundTrip_witness :
    (validatePiecesArray (some [some ⟨['a', '1'], ['K']⟩, some ⟨['e', '8'], ['k']⟩]) =
      .ok [⟨['a', '1'], ['K']⟩, ⟨['e', '8'], ['k']⟩]) ∧
    getFenPieceAtSquare (buildFENBoardPart [⟨['a', '1'], ['K']⟩, ⟨['e', '8'], ['k']⟩])
        ['e', '8'] =
      (([(⟨['a', '1'], ['K']⟩ : PieceEntry), ⟨['e', '8'], ['k']⟩].find?
          fun e => e.square == ['e', '8']).bind fun e => e.piece.head?) ∧
    getFenPieceAtSquare (buildFENBoardPart [⟨['a', '1'], ['K']⟩, ⟨['e', '8'], ['k']⟩])
        ['b', '3'] =
      (([(⟨['a', '1'], ['K']⟩ : PieceEntry), ⟨['e', '8'], ['k']⟩].find?
          fun e => e.square == ['b', '3']).bind fun e => e.piece.head?) :=
  ⟨rfl,
    (buildFEN_roundTrip [some ⟨['a', '1'], ['K']⟩, some ⟨['e', '8'], ['k']⟩]
      [⟨['a', '1'], ['K']⟩, ⟨['e', '8'], ['k']⟩] (some ['w']) rfl 'e' '8'
      (by decide) (by decide) (by decide) (by decide)).1,
    (buildFEN_roundTrip [some ⟨['a', '1'], ['K']⟩, some ⟨['e', '8'], ['k']⟩]
      [⟨['a', '1'], ['K']⟩, ⟨['e', '8'], ['k']⟩] (some ['w']) rfl 'b' '3'
      (by decide) (by decide) (by decide) (by decide)).1⟩

end ChessStudy
